import Mathlib

/-!
Verification of the versioned secret store of `fake_akv` (file
`src/fake_akv/storage.py`).  The store has two backends selected at
construction time: an ephemeral in-process map (the `_engine is None`
branches, modelled by the `mem_*` definitions below) and a durable SQLite
table (modelled by the `sq_*` definitions).  Python dicts are modelled as
insertion-ordered association lists, Unix timestamps as `Nat`, and the
`time.time()` / `uuid.uuid4()` oracles as explicit `now` / `version`
arguments to the operations that consume them.
-/

namespace FakeAkv

/-- JSON scalar values occurring in `tags` / `attributes` mappings.  The
spec's data model (§3, §9) describes tags as string→string and attributes
as string→scalar mappings; the scalar kinds are string, integer and
boolean. -/
inductive JVal where
  | jstr : String → JVal
  | jint : Int → JVal
  | jbool : Bool → JVal
deriving DecidableEq, Repr

/-- A Python dict with string keys, modelled as an insertion-ordered
association list with pairwise-distinct keys. -/
abbrev JObj := List (String × JVal)

/-- Keys of an association list, in order. -/
def dictKeys (l : List (String × α)) : List String := l.map Prod.fst

/-- Python dict key lookup (`d[k]` / `d.get(k)`): the keys are distinct,
so returning the first hit is exact. -/
def dictLookup (l : List (String × α)) (k : String) : Option α :=
  match l with
  | [] => none
  | (k', v) :: t => if k' = k then some v else dictLookup t k

/-- Python dict assignment `d[k] = v`: overwrite the entry in place when
the key is present (the keys are distinct, so the first hit is the only
one), append otherwise (dicts preserve insertion order). -/
def dictSet (l : List (String × α)) (k : String) (v : α) : List (String × α) :=
  match l with
  | [] => [(k, v)]
  | (k', w) :: t => if k' = k then (k, v) :: t else (k', w) :: dictSet t k v

/-- Python `d.pop(k, None)`: remove the key when present. -/
def dictRemove (l : List (String × α)) (k : String) : List (String × α) :=
  match l with
  | [] => []
  | (k', w) :: t => if k' = k then dictRemove t k else (k', w) :: dictRemove t k

/-- Python dict merge `{**l, **r}` (also `dict(l); for (k,v) in r: d[k]=v`):
entries of `r` win on key collision, fresh keys of `r` are appended in
order. -/
def dictUnion (l r : List (String × α)) : List (String × α) :=
  match r with
  | [] => l
  | (k, v) :: t => dictUnion (dictSet l k v) t

/-- Distinct-keys side condition satisfied by every Python dict. -/
def nodupKeys (l : List (String × α)) : Prop := (dictKeys l).Nodup

/-- One stored secret version (the per-version dict of the memory backend,
equally the decoded row of the SQLite backend). -/
structure VersionRec where
  value : String
  tags : JObj
  attributes : JObj
  enabled : Bool
  deleted : Bool
  created : Nat
  updated : Nat
deriving DecidableEq, Repr

/-- The deletion record returned by `soft_delete` / `get_deleted`. -/
structure DeletionRecord where
  deletedDate : Nat
  scheduledPurgeDate : Nat
deriving DecidableEq, Repr

/-- State of the memory backend: `_mem : Dict[str, Dict[str, dict]]` and
`_deleted : Dict[str, dict]`. -/
structure MemState where
  mem : List (String × List (String × VersionRec))
  deleted : List (String × DeletionRecord)
deriving DecidableEq, Repr

/-- The initial (empty) memory-backend state. -/
def MemState.init : MemState := ⟨[], []⟩

/-- Versions dict of a name, `self._mem.get(name) or {}`. -/
def memVers (s : MemState) (name : String) : List (String × VersionRec) :=
  (dictLookup s.mem name).getD []

/-- Snapshot of defaulted attributes returned by `Storage.put_secret`
(lines 95-100): the dict literal
`\x7b"enabled": True, "created": created, "updated": updated, **attrs\x7d`. -/
def put_snapshot (attrs : JObj) (created updated : Nat) : JObj :=
  dictUnion
    [("enabled", JVal.jbool true), ("created", JVal.jint created),
     ("updated", JVal.jint updated)]
    attrs

/-- Memory branch of `Storage.put_secret`.  `version` and `now` stand for
`uuid.uuid4().hex` and `int(time.time())`.  `tags or \x7b\x7d` and
`attributes or \x7b\x7d` both turn `None` and the empty dict into the
empty dict.  `setdefault` followed by `versions[version] = ...` is one
`dictSet` of the updated inner dict. -/
def mem_put_secret (s : MemState) (name value : String) (tags : Option JObj)
    (attributes : Option JObj) (version : String) (now : Nat) :
    MemState × String × JObj :=
  let attrs := attributes.getD []
  let versions := memVers s name
  let versions' := dictSet versions version
    { value := value, tags := tags.getD [], attributes := attrs,
      enabled := true, deleted := false, created := now, updated := now }
  ({ s with mem := dictSet s.mem name versions' },
   version, put_snapshot attrs now now)

/-- Python `max(items, key=f)`: the first element whose key value is
maximal (later elements replace the running best only when strictly
greater). -/
def argmaxUpdated (l : List (String × VersionRec)) :
    Option (String × VersionRec) :=
  match l with
  | [] => none
  | p :: t =>
    some (t.foldl (fun best q => if q.2.updated > best.2.updated then q else best) p)

/-- Memory branch of `Storage.get_latest`: no deleted-filter, maximum of
`updated` over ALL versions of the name; `None` only when the name has no
versions.  (`versions[version]` re-looks up the maximal pair; under the
dict's distinct-keys guarantee that is the pair itself.) -/
def mem_get_latest (s : MemState) (name : String) :
    Option (String × VersionRec) :=
  argmaxUpdated (memVers s name)

/-- Memory branch of `Storage.get_version`: exact lookup, no deleted
filter. -/
def mem_get_version (s : MemState) (name version : String) :
    Option VersionRec :=
  dictLookup (memVers s name) version

/-- Memory branch of `Storage.list_versions`: the non-deleted versions in
dict insertion order (i.e. creation order, oldest first). -/
def mem_list_versions (s : MemState) (name : String) :
    List (String × VersionRec) :=
  (memVers s name).filter (fun p => !p.2.deleted)

/-- Memory branch of `Storage.soft_delete`: `None` when the name has no
versions; otherwise flip `deleted` and stamp `updated = now` on every
version, store and return the deletion record. -/
def mem_soft_delete (s : MemState) (name : String) (now : Nat) :
    MemState × Option DeletionRecord :=
  match dictLookup s.mem name with
  | none => (s, none)
  | some versions =>
    if versions.isEmpty then (s, none)
    else
      let versions' := versions.map
        (fun p => (p.1, { p.2 with deleted := true, updated := now }))
      let dr : DeletionRecord := ⟨now, now + 86400 * 7⟩
      ({ mem := dictSet s.mem name versions',
         deleted := dictSet s.deleted name dr }, some dr)

/-- Memory branch of `Storage.get_deleted`: lookup in the `_deleted`
dict. -/
def mem_get_deleted (s : MemState) (name : String) : Option DeletionRecord :=
  dictLookup s.deleted name

/-- Memory branch of `Storage.list_names_latest`: skip names whose
versions are all deleted, otherwise yield the maximal-`updated`
version. -/
def mem_list_names_latest (s : MemState) : List (String × VersionRec) :=
  s.mem.filterMap (fun p =>
    if p.2.all (fun q => q.2.deleted) then none
    else (argmaxUpdated p.2).map (fun q => (p.1, q.2)))

/-- Memory branch of `Storage.recover`: `False` when the name has no
versions at all (note: NOT "no deleted versions"); otherwise clear the
`deleted` flag everywhere, drop the deletion record and return `True`. -/
def mem_recover (s : MemState) (name : String) : MemState × Bool :=
  match dictLookup s.mem name with
  | none => (s, false)
  | some versions =>
    if versions.isEmpty then (s, false)
    else
      let versions' := versions.map
        (fun p => (p.1, { p.2 with deleted := false }))
      ({ mem := dictSet s.mem name versions',
         deleted := dictRemove s.deleted name }, true)

/-! ### JSON serialization (`json_dumps` / `json_loads`, storage.py 268-285)

`json_dumps(obj)` is Python's `json.dumps(obj, separators=(",", ":"))`:
a minified object literal whose strings are escaped with the default
`ensure_ascii=True` encoder (`"` and `\` backslash-escaped, the short
control escapes, `\u00xx` for other control characters, `\uxxxx` for
every non-ASCII character, surrogate pairs above U+FFFF).  The decoder
models `json.loads` on that sublanguage (the encoder never emits lone
surrogates, whitespace, floats, nulls or nested containers). -/

/-- The double-quote character. -/
def qc : Char := Char.ofNat 34

/-- The backslash character. -/
def bsc : Char := Char.ofNat 92

/-- The opening-brace character. -/
def lbraceC : Char := Char.ofNat 123

/-- The closing-brace character. -/
def rbraceC : Char := Char.ofNat 125

/-- Lowercase hex digit (also the decimal digit for `n < 10`). -/
def hexDigit (n : Nat) : Char :=
  if n < 10 then Char.ofNat (48 + n) else Char.ofNat (87 + n)

/-- Value of a hex digit character. -/
def hexDigitVal (c : Char) : Option Nat :=
  if 48 ≤ c.toNat ∧ c.toNat ≤ 57 then some (c.toNat - 48)
  else if 97 ≤ c.toNat ∧ c.toNat ≤ 102 then some (c.toNat - 87)
  else if 65 ≤ c.toNat ∧ c.toNat ≤ 70 then some (c.toNat - 55)
  else none

/-- Four-digit lowercase hex rendering of `n < 0x10000`, as in Python's
`\u%04x`. -/
def hex4 (n : Nat) : List Char :=
  [hexDigit (n / 4096 % 16), hexDigit (n / 256 % 16),
   hexDigit (n / 16 % 16), hexDigit (n % 16)]

/-- Escape one character as Python's `ensure_ascii` JSON string encoder
does. -/
def escChar (c : Char) : List Char :=
  if c = qc then [bsc, qc]
  else if c = bsc then [bsc, bsc]
  else if 32 ≤ c.toNat ∧ c.toNat ≤ 126 then [c]
  else if c = Char.ofNat 8 then [bsc, 'b']
  else if c = Char.ofNat 9 then [bsc, 't']
  else if c = Char.ofNat 10 then [bsc, 'n']
  else if c = Char.ofNat 12 then [bsc, 'f']
  else if c = Char.ofNat 13 then [bsc, 'r']
  else if c.toNat < 65536 then bsc :: 'u' :: hex4 c.toNat
  else
    (bsc :: 'u' :: hex4 (55296 + (c.toNat - 65536) / 1024)) ++
    (bsc :: 'u' :: hex4 (56320 + (c.toNat - 65536) % 1024))

/-- Escape a character sequence. -/
def escList : List Char → List Char
  | [] => []
  | c :: t => escChar c ++ escList t

/-- A JSON string literal: quote, escaped content, quote. -/
def encStrL (s : String) : List Char := qc :: escList s.data ++ [qc]

/-- Decimal digits of a natural number, as Python renders an `int`. -/
def natDigits (n : Nat) : List Char :=
  if _h : n < 10 then [hexDigit n]
  else natDigits (n / 10) ++ [hexDigit (n % 10)]
termination_by n
decreasing_by exact Nat.div_lt_self (by omega) (by omega)

/-- Decimal rendering of an integer (minus sign for negatives). -/
def encIntL (i : Int) : List Char :=
  if i < 0 then '-' :: natDigits i.natAbs else natDigits i.toNat

/-- Encoding of one JSON scalar. -/
def encJVal : JVal → List Char
  | .jstr s => encStrL s
  | .jint i => encIntL i
  | .jbool b => if b then ['t', 'r', 'u', 'e'] else ['f', 'a', 'l', 's', 'e']

/-- Comma-separated `"key":value` entries of a minified JSON object. -/
def encEntries : JObj → List Char
  | [] => []
  | [(k, v)] => encStrL k ++ ':' :: encJVal v
  | (k, v) :: t => encStrL k ++ ':' :: encJVal v ++ ',' :: encEntries t

/-- The serializer `json_dumps(obj)` = `json.dumps(obj, separators=(",", ":"))`. -/
def json_dumps (m : JObj) : String :=
  String.mk (lbraceC :: (encEntries m ++ [rbraceC]))

/-- Greedy decimal-digit scan of `json.loads`'s number grammar (integer
part; the encoder emits integers only). -/
def parseDigits : List Char → Nat → Nat × List Char
  | [], acc => (acc, [])
  | c :: rest, acc =>
    if c.isDigit then parseDigits rest (acc * 10 + (c.toNat - 48))
    else (acc, c :: rest)

/-- The character denoted by a single-letter escape. -/
def escCharOf (e : Char) : Option Char :=
  if e = qc then some qc
  else if e = bsc then some bsc
  else if e = '/' then some '/'
  else if e = 'b' then some (Char.ofNat 8)
  else if e = 'f' then some (Char.ofNat 12)
  else if e = 'n' then some (Char.ofNat 10)
  else if e = 'r' then some (Char.ofNat 13)
  else if e = 't' then some (Char.ofNat 9)
  else none

/-- Value of four hex digit characters. -/
def hex4val (a b c d : Char) : Option Nat :=
  match hexDigitVal a, hexDigitVal b, hexDigitVal c, hexDigitVal d with
  | some x, some y, some z, some w => some (x * 4096 + y * 256 + z * 16 + w)
  | _, _, _, _ => none

/-- Parse the body of a JSON string literal (opening quote already
consumed) up to and including the closing quote, handling the escapes and
surrogate pairs produced by the encoder.  A lone surrogate is rejected:
the encoder never emits one.  `fuel` bounds the recursion depth; every
step consumes at least one character, so the callers' `input length`
always suffices. -/
def parseStrBodyF : Nat → List Char → Option (List Char × List Char)
  | 0, _ => none
  | _ + 1, [] => none
  | fuel + 1, c :: rest =>
    if c = qc then some ([], rest)
    else if c = bsc then
      match rest with
      | [] => none
      | e :: rest2 =>
        if e = 'u' then
          match rest2 with
          | h1 :: h2 :: h3 :: h4 :: rest3 =>
            match hex4val h1 h2 h3 h4 with
            | none => none
            | some n =>
              if 55296 ≤ n ∧ n < 56320 then
                match rest3 with
                | b1 :: u1 :: h5 :: h6 :: h7 :: h8 :: rest4 =>
                  if b1 = bsc ∧ u1 = 'u' then
                    match hex4val h5 h6 h7 h8 with
                    | none => none
                    | some m =>
                      if 56320 ≤ m ∧ m < 57344 then
                        match parseStrBodyF fuel rest4 with
                        | none => none
                        | some (cs, rem) =>
                          some (Char.ofNat
                            (65536 + (n - 55296) * 1024 + (m - 56320)) :: cs, rem)
                      else none
                  else none
                | _ => none
              else if 56320 ≤ n ∧ n < 57344 then none
              else
                match parseStrBodyF fuel rest3 with
                | none => none
                | some (cs, rem) => some (Char.ofNat n :: cs, rem)
          | _ => none
        else
          match escCharOf e with
          | none => none
          | some d =>
            match parseStrBodyF fuel rest2 with
            | none => none
            | some (cs, rem) => some (d :: cs, rem)
    else
      match parseStrBodyF fuel rest with
      | none => none
      | some (cs, rem) => some (c :: cs, rem)

/-- String-literal body parse at the depth bound that always suffices. -/
def parseStrBody (l : List Char) : Option (List Char × List Char) :=
  parseStrBodyF l.length l

/-- Parse one JSON scalar value (string, integer, or boolean). -/
def parseJVal (l : List Char) : Option (JVal × List Char) :=
  match l with
  | [] => none
  | c :: rest =>
    if c = qc then
      match parseStrBody rest with
      | none => none
      | some (cs, rem) => some (JVal.jstr (String.mk cs), rem)
    else if c = '-' then
      match rest with
      | d :: _ =>
        if d.isDigit then
          match parseDigits rest 0 with
          | (n, rem) => some (JVal.jint (-(n : Int)), rem)
        else none
      | [] => none
    else if c.isDigit then
      match parseDigits (c :: rest) 0 with
      | (n, rem) => some (JVal.jint (n : Int), rem)
    else if c = 't' then
      match rest with
      | 'r' :: 'u' :: 'e' :: rem => some (JVal.jbool true, rem)
      | _ => none
    else if c = 'f' then
      match rest with
      | 'a' :: 'l' :: 's' :: 'e' :: rem => some (JVal.jbool false, rem)
      | _ => none
    else none

/-- Parse the `"key":value` entries of an object up to and including the
closing brace.  `fuel` bounds the number of entries (the callers pass the
input length). -/
def parseEntries : Nat → List Char → Option (JObj × List Char)
  | 0, _ => none
  | _ + 1, [] => none
  | fuel + 1, c :: rest =>
    if c = qc then
      match parseStrBody rest with
      | none => none
      | some (k, rem) =>
        match rem with
        | c2 :: rem2 =>
          if c2 = ':' then
            match parseJVal rem2 with
            | none => none
            | some (v, rem3) =>
              match rem3 with
              | c3 :: rem4 =>
                if c3 = ',' then
                  match parseEntries fuel rem4 with
                  | none => none
                  | some (t, r) => some ((String.mk k, v) :: t, r)
                else if c3 = rbraceC then some ([(String.mk k, v)], rem4)
                else none
              | [] => none
          else none
        | [] => none
    else none

/-- Rebuild a Python dict from parsed entries (`json.loads` inserts the
pairs in order into a fresh dict, so a later duplicate key overwrites an
earlier one). -/
def objFromEntries (l : JObj) : JObj := dictUnion [] l

/-- Model of `json.loads` on the object sublanguage the store writes:
the whole input must be one object literal. -/
def json_parse (s : String) : Option JObj :=
  match s.data with
  | [] => none
  | c :: rest =>
    if c = lbraceC then
      match rest with
      | [] => none
      | d :: rest2 =>
        if d = rbraceC then (if rest2 = [] then some [] else none)
        else
          match parseEntries s.data.length rest with
          | none => none
          | some (m, rem) => if rem = [] then some (objFromEntries m) else none
    else none

/-- The helper `json_loads(s)` = `s and json.loads(s)`: `None` stays
`None` (the stored columns are never the empty string). -/
def json_loads (o : Option String) : Option JObj := o.bind json_parse

/-- Column value stored for a mapping: `(m and json_dumps(m)) or None`,
i.e. `NULL` for an absent or empty mapping and the minified JSON text
otherwise. -/
def storeCol (m : JObj) : Option String :=
  if m.isEmpty then none else some (json_dumps m)

/-- Mapping read back from a column: `json_loads(row[col]) or \x7b\x7d`. -/
def readCol (o : Option String) : JObj := (json_loads o).getD []

/-! ### The SQLite backend

The `secrets` table is modelled as a list of rows in insertion order.
`enabled` / `deleted` are stored as 0/1 and read back through `bool(...)`;
`created` / `updated` are always written by `put_secret`, so they are
modelled as `Nat`.  `tags` / `attributes` are the nullable serialized
TEXT columns. -/

/-- One row of the `secrets` table. -/
structure Row where
  name : String
  version : String
  value : String
  tags : Option String
  attributes : Option String
  enabled : Bool
  deleted : Bool
  created : Nat
  updated : Nat
deriving DecidableEq, Repr

/-- The `secrets` table, rows in insertion order. -/
abbrev SqState := List Row

/-- The helper `sqlrow_to_dict(row)` (storage.py 276-285). -/
def sqlrow_to_dict (r : Row) : VersionRec :=
  { value := r.value, tags := readCol r.tags, attributes := readCol r.attributes,
    enabled := r.enabled, deleted := r.deleted,
    created := r.created, updated := r.updated }

/-- SQLite branch of `Storage.put_secret`: one INSERT.  The `(name,
version)` PRIMARY KEY makes a duplicate insert raise (the transaction
rolls back), modelled by `none`. -/
def sq_put_secret (s : SqState) (name value : String) (tags : Option JObj)
    (attributes : Option JObj) (version : String) (now : Nat) :
    Option (SqState × String × JObj) :=
  let attrs := attributes.getD []
  if s.any (fun r => r.name == name && r.version == version) then none
  else some
    (s ++ [{ name := name, version := version, value := value,
             tags := storeCol (tags.getD []), attributes := storeCol attrs,
             enabled := true, deleted := false, created := now, updated := now }],
     version, put_snapshot attrs now now)

/-- Rows selected by `WHERE name=:n AND deleted=0`. -/
def sqRowsNonDeleted (s : SqState) (name : String) : List Row :=
  s.filter (fun r => r.name == name && !r.deleted)

/-- A row with maximal `created` (SQLite's `ORDER BY created DESC LIMIT 1`;
the winner among ties is backend-defined, the model keeps the first in
table order). -/
def maxByCreated (l : List Row) : Option Row :=
  match l with
  | [] => none
  | r :: t =>
    some (t.foldl (fun best q => if q.created > best.created then q else best) r)

/-- SQLite branch of `Storage.get_latest`: greatest-`created` row among
the NON-deleted rows of the name. -/
def sq_get_latest (s : SqState) (name : String) : Option (String × VersionRec) :=
  (maxByCreated (sqRowsNonDeleted s name)).map
    (fun r => (r.version, sqlrow_to_dict r))

/-- SQLite branch of `Storage.get_version`: exact `(name, version)`
lookup, no deleted filter. -/
def sq_get_version (s : SqState) (name version : String) : Option VersionRec :=
  (s.find? (fun r => r.name == name && r.version == version)).map sqlrow_to_dict

/-- Stable insertion step of the `created`-descending sort. -/
def insertByCreatedDesc (r : Row) : List Row → List Row
  | [] => [r]
  | q :: t =>
    if q.created ≥ r.created then q :: insertByCreatedDesc r t else r :: q :: t

/-- Stable sort by `created` descending (`ORDER BY created DESC`; the
relative order of ties is backend-defined, the model keeps table
order). -/
def sortByCreatedDesc : List Row → List Row
  | [] => []
  | r :: t => insertByCreatedDesc r (sortByCreatedDesc t)

/-- SQLite branch of `Storage.list_versions`: non-deleted rows of the
name ordered by `created` descending. -/
def sq_list_versions (s : SqState) (name : String) : List (String × VersionRec) :=
  (sortByCreatedDesc (sqRowsNonDeleted s name)).map
    (fun r => (r.version, sqlrow_to_dict r))

/-- SQLite branch of `Storage.soft_delete`: `None` when `COUNT(1)` of the
name's rows is zero, otherwise `UPDATE secrets SET deleted=1, updated=:u
WHERE name=:n` and a fresh deletion record. -/
def sq_soft_delete (s : SqState) (name : String) (now : Nat) :
    SqState × Option DeletionRecord :=
  if s.countP (fun r => r.name == name) = 0 then (s, none)
  else
    (s.map (fun r =>
       if r.name = name then { r with deleted := true, updated := now } else r),
     some ⟨now, now + 86400 * 7⟩)

/-- Rows selected by `WHERE name=:n AND deleted=1`. -/
def sqDeletedRows (s : SqState) (name : String) : List Row :=
  s.filter (fun r => r.name == name && r.deleted)

/-- `MIN(updated)` over a row set (`NULL`, i.e. `none`, when empty). -/
def minUpdated (l : List Row) : Option Nat :=
  match l with
  | [] => none
  | r :: t =>
    some (t.foldl (fun m q => if q.updated < m then q.updated else m) r.updated)

/-- SQLite branch of `Storage.get_deleted`: `MIN(updated)` among the
name's deleted rows, `None` when that aggregate is `NULL`. -/
def sq_get_deleted (s : SqState) (name : String) : Option DeletionRecord :=
  match minUpdated (sqDeletedRows s name) with
  | none => none
  | some m => some ⟨m, m + 86400 * 7⟩

/-- First occurrences of a list of names (`SELECT DISTINCT name`; the
order is backend-defined, the model keeps first-appearance order). -/
def firstOccurrences (l : List String) : List String :=
  match l with
  | [] => []
  | n :: t => n :: firstOccurrences (t.filter (fun x => !(x == n)))
termination_by l.length
decreasing_by
  simp only [List.length_cons]
  exact Nat.lt_succ_of_le (List.length_filter_le _ _)

/-- SQLite branch of `Storage.list_names_latest`: the distinct names with
a non-deleted row, each with its `get_latest` data. -/
def sq_list_names_latest (s : SqState) : List (String × VersionRec) :=
  (firstOccurrences ((s.filter (fun r => !r.deleted)).map (fun r => r.name))).filterMap
    (fun n => (sq_get_latest s n).map (fun p => (n, p.2)))

/-- SQLite branch of `Storage.recover`: `False` when the name has no
deleted rows, otherwise `UPDATE secrets SET deleted=0 WHERE name=:n`. -/
def sq_recover (s : SqState) (name : String) : SqState × Bool :=
  if s.countP (fun r => r.name == name && r.deleted) = 0 then (s, false)
  else
    (s.map (fun r => if r.name = name then { r with deleted := false } else r),
     true)

/-! ### The operation alphabet and step functions

One constructor per public store operation; the `now` / `version`
arguments stand for the `time.time()` and `uuid.uuid4()` oracles. -/

/-- A store call with its arguments. -/
inductive Op where
  | put (name value : String) (tags : Option JObj) (attributes : Option JObj)
        (version : String) (now : Nat)
  | getLatest (name : String)
  | getVersion (name version : String)
  | listVersions (name : String)
  | listLatest
  | softDelete (name : String) (now : Nat)
  | getDeleted (name : String)
  | recoverOp (name : String)
deriving DecidableEq, Repr

/-- The result of one store call. -/
inductive Out where
  | putR : String → JObj → Out
  | latestR : Option (String × VersionRec) → Out
  | versionR : Option VersionRec → Out
  | listR : List (String × VersionRec) → Out
  | namesR : List (String × VersionRec) → Out
  | deleteR : Option DeletionRecord → Out
  | deletedR : Option DeletionRecord → Out
  | recoverR : Bool → Out
  | failR : Out
deriving DecidableEq, Repr

/-- One call against the memory backend. -/
def memStep (s : MemState) : Op → MemState × Out
  | .put name value tags attrs version now =>
    let r := mem_put_secret s name value tags attrs version now
    (r.1, .putR r.2.1 r.2.2)
  | .getLatest name => (s, .latestR (mem_get_latest s name))
  | .getVersion name version => (s, .versionR (mem_get_version s name version))
  | .listVersions name => (s, .listR (mem_list_versions s name))
  | .listLatest => (s, .namesR (mem_list_names_latest s))
  | .softDelete name now =>
    let r := mem_soft_delete s name now
    (r.1, .deleteR r.2)
  | .getDeleted name => (s, .deletedR (mem_get_deleted s name))
  | .recoverOp name =>
    let r := mem_recover s name
    (r.1, .recoverR r.2)

/-- One call against the SQLite backend (a failed INSERT rolls the
transaction back, leaving the table unchanged). -/
def sqStep (s : SqState) : Op → SqState × Out
  | .put name value tags attrs version now =>
    match sq_put_secret s name value tags attrs version now with
    | none => (s, .failR)
    | some r => (r.1, .putR r.2.1 r.2.2)
  | .getLatest name => (s, .latestR (sq_get_latest s name))
  | .getVersion name version => (s, .versionR (sq_get_version s name version))
  | .listVersions name => (s, .listR (sq_list_versions s name))
  | .listLatest => (s, .namesR (sq_list_names_latest s))
  | .softDelete name now =>
    let r := sq_soft_delete s name now
    (r.1, .deleteR r.2)
  | .getDeleted name => (s, .deletedR (sq_get_deleted s name))
  | .recoverOp name =>
    let r := sq_recover s name
    (r.1, .recoverR r.2)

/-- Run a call sequence against the memory backend from a given state. -/
def memRun (s : MemState) : List Op → MemState
  | [] => s
  | op :: t => memRun (memStep s op).1 t

/-- Run a call sequence against the SQLite backend from a given state. -/
def sqRun (s : SqState) : List Op → SqState
  | [] => s
  | op :: t => sqRun (sqStep s op).1 t

/-! ### Derived notions used by the statements -/

/-- Deleted versions of a name in the memory backend. -/
def memDeletedVers (s : MemState) (name : String) :
    List (String × VersionRec) :=
  (memVers s name).filter (fun p => p.2.deleted)

/-- Freshness of the version oracle for a call against the memory
backend: a `put` never reuses an existing version id of the same name
(`uuid.uuid4()` collisions are negligible). -/
def memFresh (s : MemState) : Op → Prop
  | .put name _ _ _ version _ => mem_get_version s name version = none
  | _ => True

/-- Freshness of the version oracle for a call against the SQLite
backend. -/
def sqFresh (s : SqState) : Op → Prop
  | .put name _ _ _ version _ => sq_get_version s name version = none
  | _ => True

/-- States of the memory backend reachable from the empty store by store
calls whose version oracle is fresh.  Read operations leave the state
unchanged (see the frame theorem for C10), so only the three mutating
calls appear. -/
inductive MemReach : MemState → Prop where
  | init : MemReach MemState.init
  | put : ∀ {s} (name value : String) (tags attrs : Option JObj)
      (version : String) (now : Nat), MemReach s →
      mem_get_version s name version = none →
      MemReach (mem_put_secret s name value tags attrs version now).1
  | softDelete : ∀ {s} (name : String) (now : Nat), MemReach s →
      MemReach (mem_soft_delete s name now).1
  | recoverStep : ∀ {s} (name : String), MemReach s →
      MemReach (mem_recover s name).1

/-- Invariant of the memory backend tying the `_deleted` dict to the
version flags: a deletion record exists exactly for the names with a
deleted version, every deleted version of such a name carries the
record's `deletedDate` as its `updated` stamp, and the purge date is
`deletedDate + 604800`. -/
def memDelInv (s : MemState) : Prop :=
  ∀ name,
    (dictLookup s.deleted name = none → memDeletedVers s name = []) ∧
    ∀ dr, dictLookup s.deleted name = some dr →
      memDeletedVers s name ≠ [] ∧
      (∀ p ∈ memDeletedVers s name, p.2.updated = dr.deletedDate) ∧
      dr.scheduledPurgeDate = dr.deletedDate + 86400 * 7

/-- A character list that does not begin with a decimal digit (the
context after a JSON number in an object literal). -/
def noLeadingDigit (l : List Char) : Prop :=
  ∀ d, l.head? = some d → d.isDigit = false

/-! ### Association-list (Python dict) lemmas -/

theorem dictLookup_eq_none_iff (l : List (String × α)) (k : String) :
    dictLookup l k = none ↔ k ∉ dictKeys l := by
  induction l with
  | nil => simp [dictLookup, dictKeys]
  | cons p t ih =>
    obtain ⟨k', v⟩ := p
    by_cases h : k' = k
    · subst h
      simp [dictLookup, dictKeys]
    · simp only [dictLookup, if_neg h, dictKeys, List.map_cons, List.mem_cons]
      rw [ih]
      simp only [dictKeys]
      push_neg
      exact ⟨fun hn => ⟨fun hc => h hc.symm, hn⟩, fun hn => hn.2⟩

theorem dictKeys_append (l r : List (String × α)) :
    dictKeys (l ++ r) = dictKeys l ++ dictKeys r := by
  simp [dictKeys]

theorem dictLookup_dictSet_self (l : List (String × α)) (k : String) (v : α) :
    dictLookup (dictSet l k v) k = some v := by
  induction l with
  | nil => simp [dictSet, dictLookup]
  | cons p t ih =>
    obtain ⟨k', w⟩ := p
    by_cases h : k' = k
    · simp [dictSet, dictLookup, h]
    · simp only [dictSet, if_neg h, dictLookup]
      exact ih

theorem dictLookup_dictSet_ne (l : List (String × α)) (k k' : String) (v : α)
    (h : k' ≠ k) :
    dictLookup (dictSet l k v) k' = dictLookup l k' := by
  induction l with
  | nil =>
    simp only [dictSet, dictLookup]
    rw [if_neg (fun hh : k = k' => h hh.symm)]
  | cons p t ih =>
    obtain ⟨k1, w⟩ := p
    by_cases h1 : k1 = k
    · subst h1
      simp only [dictSet, if_pos rfl, dictLookup]
      rw [if_neg (fun hh : k1 = k' => h (hh ▸ rfl)),
        if_neg (fun hh : k1 = k' => h (hh ▸ rfl))]
    · simp only [dictSet, if_neg h1, dictLookup]
      by_cases h2 : k1 = k'
      · rw [if_pos h2, if_pos h2]
      · rw [if_neg h2, if_neg h2]
        exact ih

theorem dictSet_of_not_mem (l : List (String × α)) (k : String) (v : α)
    (h : k ∉ dictKeys l) : dictSet l k v = l ++ [(k, v)] := by
  induction l with
  | nil => simp [dictSet]
  | cons p t ih =>
    obtain ⟨k', w⟩ := p
    simp only [dictKeys, List.map_cons, List.mem_cons] at h
    push_neg at h
    simp only [dictSet, if_neg (fun hh : k' = k => h.1 hh.symm), List.cons_append,
      List.cons.injEq, true_and]
    exact ih h.2

theorem dictKeys_mapVal (l : List (String × α)) (g : α → β) :
    dictKeys (l.map (fun p => (p.1, g p.2))) = dictKeys l := by
  simp [dictKeys]

theorem dictLookup_mapVal (l : List (String × α)) (g : α → β) (k : String) :
    dictLookup (l.map (fun p => (p.1, g p.2))) k = (dictLookup l k).map g := by
  induction l with
  | nil => simp [dictLookup]
  | cons p t ih =>
    obtain ⟨k', v⟩ := p
    by_cases h : k' = k
    · simp [dictLookup, h]
    · simp only [List.map_cons, dictLookup, if_neg h]
      exact ih

theorem dictLookup_dictRemove_self (l : List (String × α)) (k : String) :
    dictLookup (dictRemove l k) k = none := by
  induction l with
  | nil => simp [dictRemove, dictLookup]
  | cons p t ih =>
    obtain ⟨k', v⟩ := p
    by_cases h : k' = k
    · simpa [dictRemove, h] using ih
    · simp only [dictRemove, if_neg h, dictLookup]
      exact ih

theorem dictLookup_dictRemove_ne (l : List (String × α)) (k k' : String)
    (h : k' ≠ k) :
    dictLookup (dictRemove l k) k' = dictLookup l k' := by
  induction l with
  | nil => simp [dictRemove]
  | cons p t ih =>
    obtain ⟨k1, v⟩ := p
    by_cases h1 : k1 = k
    · subst h1
      simp only [dictRemove, if_true, eq_self_iff_true, dictLookup]
      rw [ih]
      rw [if_neg (fun hh : k1 = k' => h (hh ▸ rfl))]
    · simp only [dictRemove, if_neg h1, dictLookup]
      by_cases h2 : k1 = k'
      · rw [if_pos h2, if_pos h2]
      · rw [if_neg h2, if_neg h2]
        exact ih

theorem dictLookup_dictUnion_of_none (l r : List (String × α)) (k : String) :
    dictLookup r k = none → dictLookup (dictUnion l r) k = dictLookup l k := by
  induction r generalizing l with
  | nil => simp [dictUnion]
  | cons p t ih =>
    obtain ⟨k1, v⟩ := p
    intro h
    simp only [dictLookup] at h
    by_cases h1 : k1 = k
    · simp [h1] at h
    · rw [if_neg h1] at h
      simp only [dictUnion]
      rw [ih _ h, dictLookup_dictSet_ne _ _ _ _ (fun hh => h1 hh.symm)]

theorem dictLookup_dictUnion_of_some (l r : List (String × α)) (k : String)
    (v : α) :
    nodupKeys r → dictLookup r k = some v →
      dictLookup (dictUnion l r) k = some v := by
  induction r generalizing l with
  | nil => intro _ h; simp [dictLookup] at h
  | cons p t ih =>
    obtain ⟨k1, w⟩ := p
    intro hr h
    simp only [nodupKeys, dictKeys, List.map_cons, List.nodup_cons] at hr
    simp only [dictLookup] at h
    by_cases h1 : k1 = k
    · subst h1
      rw [if_pos rfl] at h
      simp only [Option.some.injEq] at h
      subst h
      simp only [dictUnion]
      rw [dictLookup_dictUnion_of_none _ _ _
        ((dictLookup_eq_none_iff t k1).mpr (by simpa [dictKeys] using hr.1))]
      exact dictLookup_dictSet_self _ _ _
    · rw [if_neg h1] at h
      simp only [dictUnion]
      exact ih _ (by simpa [nodupKeys, dictKeys] using hr.2) h

/-! ### Claim theorems -/

/-- C10: every read operation — GetLatest, GetVersion, ListVersions,
ListLatestPerName and GetDeletionRecord — leaves the store state of
either backend completely unchanged. -/
theorem c10_reads_preserve_state :
    ∀ (s : MemState) (q : SqState) (name version : String),
      (memStep s (.getLatest name)).1 = s ∧
      (memStep s (.getVersion name version)).1 = s ∧
      (memStep s (.listVersions name)).1 = s ∧
      (memStep s .listLatest).1 = s ∧
      (memStep s (.getDeleted name)).1 = s ∧
      (sqStep q (.getLatest name)).1 = q ∧
      (sqStep q (.getVersion name version)).1 = q ∧
      (sqStep q (.listVersions name)).1 = q ∧
      (sqStep q .listLatest).1 = q ∧
      (sqStep q (.getDeleted name)).1 = q := by
  intro s q name version
  exact ⟨rfl, rfl, rfl, rfl, rfl, rfl, rfl, rfl, rfl, rfl⟩

/-- C1, evaluation at the failing input: against the memory backend,
create one version of `"a"` at time 0 and soft-delete the name at time 1,
so that every version of `"a"` is deleted; `get_latest "a"` then returns
the deleted version instead of the `None` the claim requires (the memory
branch of `get_latest` has no deleted-filter and maximises `updated` over
all versions). -/
theorem c1_memory_get_latest_ignores_deleted :
    mem_get_latest
        (memRun MemState.init [.put "a" "x" none none "v1" 0, .softDelete "a" 1])
        "a" =
      some ("v1",
        { value := "x", tags := [], attributes := [], enabled := true,
          deleted := true, created := 0, updated := 1 }) := by
  decide

/-- C2, evaluation at the failing input: after the same two calls —
create one version of `"a"`, then soft-delete `"a"` — the two backends
disagree on `GetLatest "a"`: the memory backend returns the deleted
version while the SQLite backend returns `None`. -/
theorem c2_backends_disagree :
    (memStep
        (memRun MemState.init [.put "a" "x" none none "v1" 0, .softDelete "a" 1])
        (.getLatest "a")).2 ≠
      (sqStep
        (sqRun [] [.put "a" "x" none none "v1" 0, .softDelete "a" 1])
        (.getLatest "a")).2 := by
  decide

/-- C3, evaluation at the failing input: on a name with one version and
zero deleted versions, `recover` against the memory backend returns
`true` (it only checks that the name has versions), while the SQLite
backend returns `false` as the claim requires. -/
theorem c3_memory_recover_without_deleted :
    (mem_recover (memRun MemState.init [.put "a" "x" none none "v1" 0]) "a").2
        = true ∧
      memDeletedVers (memRun MemState.init [.put "a" "x" none none "v1" 0]) "a"
        = [] ∧
      (sq_recover (sqRun [] [.put "a" "x" none none "v1" 0]) "a").2 = false := by
  exact ⟨by decide, by decide, by decide⟩

/-- C4, evaluation at the failing input: after creating versions `"v1"`
(created 0) and `"v2"` (created 1) of `"a"`, the memory backend lists the
versions in dict insertion order — `created` ASCENDING, oldest first —
while the claim requires `created` descending (which the SQLite branch
delivers). -/
theorem c4_memory_list_versions_ascending :
    mem_list_versions
        (memRun MemState.init
          [.put "a" "x" none none "v1" 0, .put "a" "y" none none "v2" 1]) "a" =
      [("v1", { value := "x", tags := [], attributes := [], enabled := true,
                deleted := false, created := 0, updated := 0 }),
       ("v2", { value := "y", tags := [], attributes := [], enabled := true,
                deleted := false, created := 1, updated := 1 })] ∧
      sq_list_versions
        (sqRun []
          [.put "a" "x" none none "v1" 0, .put "a" "y" none none "v2" 1]) "a" =
      [("v2", { value := "y", tags := [], attributes := [], enabled := true,
                deleted := false, created := 1, updated := 1 }),
       ("v1", { value := "x", tags := [], attributes := [], enabled := true,
                deleted := false, created := 0, updated := 0 })] := by
  exact ⟨by decide, by decide⟩

/-- C6, counterexample: the attribute snapshot returned by the store's
`put_secret` contains no `recoveryLevel` key at all when the caller did
not supply one, contradicting the claimed default of `"Purgeable"` (that
default is added by the response-projection layer in `main.py`, not by
the store). -/
theorem c6_counterexample :
    dictLookup (mem_put_secret MemState.init "a" "x" none none "v1" 5).2.2
      "recoveryLevel" = none := by
  decide

/-- C6, amended: `put_secret` (both backends) returns the snapshot
`put_snapshot`, which merges `enabled = true` and `created = updated =
now` with the caller-supplied attributes, caller values winning on key
collision; `recoveryLevel` appears in the snapshot exactly when the
caller supplied it (the store adds no `recoveryLevel` default). -/
theorem c6_snapshot_amended :
    ∀ (s : MemState) (q : SqState) (name value : String)
      (tags attributes : Option JObj) (version : String) (now : Nat),
      nodupKeys (attributes.getD []) →
      (mem_put_secret s name value tags attributes version now).2.2 =
          put_snapshot (attributes.getD []) now now ∧
      (∀ out, sq_put_secret q name value tags attributes version now = some out →
          out.2.2 = put_snapshot (attributes.getD []) now now) ∧
      (∀ k v, dictLookup (attributes.getD []) k = some v →
          dictLookup (put_snapshot (attributes.getD []) now now) k = some v) ∧
      (dictLookup (attributes.getD []) "enabled" = none →
          dictLookup (put_snapshot (attributes.getD []) now now) "enabled" =
            some (JVal.jbool true)) ∧
      (dictLookup (attributes.getD []) "created" = none →
          dictLookup (put_snapshot (attributes.getD []) now now) "created" =
            some (JVal.jint now)) ∧
      (dictLookup (attributes.getD []) "updated" = none →
          dictLookup (put_snapshot (attributes.getD []) now now) "updated" =
            some (JVal.jint now)) ∧
      dictLookup (put_snapshot (attributes.getD []) now now) "recoveryLevel" =
          dictLookup (attributes.getD []) "recoveryLevel" := by
  intro s q name value tags attributes version now hnd
  refine ⟨rfl, ?_, ?_, ?_, ?_, ?_, ?_⟩
  · intro out hout
    unfold sq_put_secret at hout
    by_cases hdup :
        q.any (fun r => r.name == name && r.version == version) = true
    · simp [hdup] at hout
    · simp only [Bool.not_eq_true] at hdup
      simp [hdup] at hout
      rw [← hout]
  · intro k v hk
    exact dictLookup_dictUnion_of_some _ _ _ _ hnd hk
  · intro hn
    rw [put_snapshot, dictLookup_dictUnion_of_none _ _ _ hn]
    simp [dictLookup]
  · intro hn
    rw [put_snapshot, dictLookup_dictUnion_of_none _ _ _ hn]
    simp [dictLookup]
  · intro hn
    rw [put_snapshot, dictLookup_dictUnion_of_none _ _ _ hn]
    simp [dictLookup]
  · cases hrl : dictLookup (attributes.getD []) "recoveryLevel" with
    | none =>
      rw [put_snapshot, dictLookup_dictUnion_of_none _ _ _ hrl]
      simp [dictLookup]
    | some v =>
      exact dictLookup_dictUnion_of_some _ _ _ _ hnd hrl

/-- C6, witness: the amended theorem applied at a concrete call whose
caller-supplied attributes include a `recoveryLevel` entry: the caller
value wins. -/
theorem c6_witness :
    dictLookup
        (put_snapshot [("recoveryLevel", JVal.jstr "Recoverable")] 7 7)
        "recoveryLevel" = some (JVal.jstr "Recoverable") := by
  have h := c6_snapshot_amended MemState.init [] "a" "x" none
    (some [("recoveryLevel", JVal.jstr "Recoverable")]) "v1" 7
    (by simp [nodupKeys, dictKeys])
  exact h.2.2.1 "recoveryLevel" (JVal.jstr "Recoverable") (by decide)

/-- C5: `soft_delete` on either backend returns NotFound exactly when the
name has zero versions; otherwise it flips `deleted = true` and stamps the
single timestamp `updated = now` on every version of the name (including
versions already deleted), and the returned record has `deletedDate = now`
and `scheduledPurgeDate - deletedDate = 604800`. -/
theorem c5_soft_delete_contract :
    ∀ (s : MemState) (q : SqState) (name : String) (now : Nat),
      ((mem_soft_delete s name now).2 = none ↔ memVers s name = []) ∧
      (∀ dr, (mem_soft_delete s name now).2 = some dr →
        dr.deletedDate = now ∧
        dr.scheduledPurgeDate - dr.deletedDate = 604800) ∧
      (memVers s name ≠ [] →
        memVers (mem_soft_delete s name now).1 name =
          (memVers s name).map
            (fun p => (p.1, { p.2 with deleted := true, updated := now }))) ∧
      ((sq_soft_delete q name now).2 = none ↔
        q.filter (fun r => r.name == name) = []) ∧
      (∀ dr, (sq_soft_delete q name now).2 = some dr →
        dr.deletedDate = now ∧
        dr.scheduledPurgeDate - dr.deletedDate = 604800) ∧
      ((sq_soft_delete q name now).1.length = q.length) ∧
      (q.filter (fun r => r.name == name) ≠ [] →
        ∀ r ∈ (sq_soft_delete q name now).1, r.name = name →
          r.deleted = true ∧ r.updated = now) := by
  intro s q name now
  have hcount : (q.countP (fun r => r.name == name) = 0) ↔
      q.filter (fun r => r.name == name) = [] := by
    rw [List.countP_eq_length_filter, List.length_eq_zero]
  refine ⟨?_, ?_, ?_, ?_, ?_, ?_, ?_⟩
  · cases hmv : dictLookup s.mem name with
    | none => simp [mem_soft_delete, hmv, memVers]
    | some versions =>
      by_cases he : versions.isEmpty
      · simp [mem_soft_delete, hmv, he, memVers, List.isEmpty_iff.mp he]
      · simp only [mem_soft_delete, hmv, memVers, Option.getD_some]
        rw [if_neg he]
        simp only [reduceCtorEq, false_iff]
        exact fun h => he (List.isEmpty_iff.mpr h)
  · intro dr hdr
    cases hmv : dictLookup s.mem name with
    | none => simp [mem_soft_delete, hmv] at hdr
    | some versions =>
      by_cases he : versions.isEmpty
      · simp [mem_soft_delete, hmv, he] at hdr
      · simp only [mem_soft_delete, hmv] at hdr
        rw [if_neg he] at hdr
        simp only [Option.some.injEq] at hdr
        subst hdr
        exact ⟨rfl, by show now + 86400 * 7 - now = 604800; omega⟩
  · intro hne
    cases hmv : dictLookup s.mem name with
    | none => exact absurd (by simp [memVers, hmv]) hne
    | some versions =>
      have hvne : ¬versions.isEmpty := by
        intro he
        exact hne (by simp [memVers, hmv, List.isEmpty_iff.mp he])
      simp only [mem_soft_delete, hmv]
      rw [if_neg hvne]
      simp only [memVers, hmv, Option.getD_some]
      rw [dictLookup_dictSet_self]
      rfl
  · by_cases hc : q.countP (fun r => r.name == name) = 0
    · simp [sq_soft_delete, hc, hcount.mp hc]
    · simp only [sq_soft_delete]
      rw [if_neg hc]
      simp only [reduceCtorEq, false_iff]
      exact fun h => hc (hcount.mpr h)
  · intro dr hdr
    by_cases hc : q.countP (fun r => r.name == name) = 0
    · simp [sq_soft_delete, hc] at hdr
    · simp only [sq_soft_delete] at hdr
      rw [if_neg hc] at hdr
      simp only [Option.some.injEq] at hdr
      subst hdr
      exact ⟨rfl, by show now + 86400 * 7 - now = 604800; omega⟩
  · by_cases hc : q.countP (fun r => r.name == name) = 0
    · simp [sq_soft_delete, hc]
    · simp only [sq_soft_delete]
      rw [if_neg hc]
      simp
  · intro hf r hr hname
    have hc : ¬q.countP (fun r => r.name == name) = 0 :=
      fun h => hf (hcount.mp h)
    simp only [sq_soft_delete] at hr
    rw [if_neg hc] at hr
    obtain ⟨r0, _hr0, hmap⟩ := List.mem_map.mp hr
    by_cases h0 : r0.name = name
    · rw [if_pos h0] at hmap
      subst hmap
      exact ⟨rfl, rfl⟩
    · rw [if_neg h0] at hmap
      subst hmap
      exact absurd hname h0

/-- C5, witness: the contract applied to the store holding one version
`"v1"` of `"a"` (created at 0) and a soft-delete at time 7: the single
version comes back deleted with `updated = 7`, and the purge window is
604800 seconds. -/
theorem c5_witness :
    memVers (mem_soft_delete
        (mem_put_secret MemState.init "a" "x" none none "v1" 0).1 "a" 7).1 "a" =
      [("v1", { value := "x", tags := [], attributes := [], enabled := true,
                deleted := true, created := 0, updated := 7 })] ∧
    (7 + 604800 : Nat) - 7 = 604800 := by
  have h := c5_soft_delete_contract
    (mem_put_secret MemState.init "a" "x" none none "v1" 0).1 [] "a" 7
  exact ⟨(h.2.2.1 (by decide)).trans (by decide),
    (h.2.1 ⟨7, 7 + 604800⟩ (by decide)).2⟩

theorem mem_get_version_put (s : MemState) (name value : String)
    (tags attrs : Option JObj) (version : String) (now : Nat) (n v : String) :
    mem_get_version (mem_put_secret s name value tags attrs version now).1 n v =
      if n = name ∧ v = version then
        some { value := value, tags := tags.getD [],
               attributes := attrs.getD [], enabled := true, deleted := false,
               created := now, updated := now }
      else mem_get_version s n v := by
  by_cases hn : n = name
  · subst hn
    simp only [mem_get_version, mem_put_secret, memVers]
    rw [dictLookup_dictSet_self]
    simp only [Option.getD_some]
    by_cases hv : v = version
    · subst hv
      simp [dictLookup_dictSet_self]
    · rw [if_neg (fun h => hv h.2), dictLookup_dictSet_ne _ _ _ _ hv]
  · simp only [mem_get_version, mem_put_secret, memVers]
    rw [dictLookup_dictSet_ne _ _ _ _ hn, if_neg (fun h => hn h.1)]

theorem mem_get_version_soft_delete (s : MemState) (name : String) (now : Nat)
    (n v : String) :
    mem_get_version (mem_soft_delete s name now).1 n v =
      if n = name ∧ memVers s name ≠ [] then
        (mem_get_version s n v).map
          (fun r => { r with deleted := true, updated := now })
      else mem_get_version s n v := by
  cases hmv : dictLookup s.mem name with
  | none =>
    simp only [mem_soft_delete, hmv]
    rw [if_neg (fun h => h.2 (by simp [memVers, hmv]))]
  | some versions =>
    by_cases he : versions.isEmpty
    · simp only [mem_soft_delete, hmv]
      rw [if_pos he,
        if_neg (fun h => h.2 (by simp [memVers, hmv, List.isEmpty_iff.mp he]))]
    · simp only [mem_soft_delete, hmv]
      rw [if_neg he]
      have hne : memVers s name ≠ [] := by
        simp only [memVers, hmv, Option.getD_some]
        exact fun h => he (List.isEmpty_iff.mpr h)
      by_cases hn : n = name
      · subst hn
        have hcond : n = n ∧ memVers s n ≠ [] := ⟨rfl, hne⟩
        rw [if_pos hcond]
        simp only [mem_get_version, memVers, hmv, Option.getD_some]
        rw [dictLookup_dictSet_self]
        simp only [Option.getD_some]
        exact dictLookup_mapVal versions
          (fun r => { r with deleted := true, updated := now }) v
      · rw [if_neg (fun h => hn h.1)]
        simp only [mem_get_version, memVers]
        rw [dictLookup_dictSet_ne _ _ _ _ hn]

theorem mem_get_version_recover (s : MemState) (name : String) (n v : String) :
    mem_get_version (mem_recover s name).1 n v =
      if n = name ∧ memVers s name ≠ [] then
        (mem_get_version s n v).map (fun r => { r with deleted := false })
      else mem_get_version s n v := by
  cases hmv : dictLookup s.mem name with
  | none =>
    simp only [mem_recover, hmv]
    rw [if_neg (fun h => h.2 (by simp [memVers, hmv]))]
  | some versions =>
    by_cases he : versions.isEmpty
    · simp only [mem_recover, hmv]
      rw [if_pos he,
        if_neg (fun h => h.2 (by simp [memVers, hmv, List.isEmpty_iff.mp he]))]
    · simp only [mem_recover, hmv]
      rw [if_neg he]
      have hne : memVers s name ≠ [] := by
        simp only [memVers, hmv, Option.getD_some]
        exact fun h => he (List.isEmpty_iff.mpr h)
      by_cases hn : n = name
      · subst hn
        have hcond : n = n ∧ memVers s n ≠ [] := ⟨rfl, hne⟩
        rw [if_pos hcond]
        simp only [mem_get_version, memVers, hmv, Option.getD_some]
        rw [dictLookup_dictSet_self]
        simp only [Option.getD_some]
        exact dictLookup_mapVal versions (fun r => { r with deleted := false }) v
      · rw [if_neg (fun h => hn h.1)]
        simp only [mem_get_version, memVers]
        rw [dictLookup_dictSet_ne _ _ _ _ hn]

theorem find?_append_of_found (q t : List Row) (p : Row → Bool) (r : Row)
    (h : q.find? p = some r) : (q ++ t).find? p = some r := by
  induction q with
  | nil => simp [List.find?] at h
  | cons a u ih =>
    cases hp : p a with
    | true =>
      rw [List.find?_cons_of_pos _ hp] at h
      rw [List.cons_append, List.find?_cons_of_pos _ hp]
      exact h
    | false =>
      rw [List.find?_cons_of_neg _ (by simp [hp])] at h
      rw [List.cons_append, List.find?_cons_of_neg _ (by simp [hp])]
      exact ih h

theorem find?_append_single_of_neg (q : List Row) (p : Row → Bool) (row : Row)
    (h : p row = false) : (q ++ [row]).find? p = q.find? p := by
  induction q with
  | nil => simp [List.find?, h]
  | cons a u ih =>
    cases hp : p a with
    | true =>
      rw [List.cons_append, List.find?_cons_of_pos _ hp,
        List.find?_cons_of_pos _ hp]
    | false =>
      rw [List.cons_append, List.find?_cons_of_neg _ (by simp [hp]),
        List.find?_cons_of_neg _ (by simp [hp])]
      exact ih

theorem find?_map_of_pred_inv (q : List Row) (F : Row → Row) (p : Row → Bool)
    (hp : ∀ r, p (F r) = p r) :
    (q.map F).find? p = (q.find? p).map F := by
  induction q with
  | nil => rfl
  | cons a u ih =>
    cases hpa : p a with
    | true =>
      rw [List.map_cons, List.find?_cons_of_pos _ (by rw [hp]; exact hpa),
        List.find?_cons_of_pos _ hpa]
      rfl
    | false =>
      rw [List.map_cons, List.find?_cons_of_neg _ (by simp [hp, hpa]),
        List.find?_cons_of_neg _ (by simp [hpa])]
      exact ih

theorem sq_get_version_map_guard (q : SqState) (name : String) (g : Row → Row)
    (gd : VersionRec → VersionRec)
    (hgn : ∀ r, (g r).name = r.name) (hgv : ∀ r, (g r).version = r.version)
    (hgd : ∀ r, sqlrow_to_dict (g r) = gd (sqlrow_to_dict r)) (n v : String) :
    sq_get_version (q.map (fun r => if r.name = name then g r else r)) n v =
      if n = name then (sq_get_version q n v).map gd
      else sq_get_version q n v := by
  have hFn : ∀ r : Row, ((fun r => if r.name = name then g r else r) r).name
      = r.name := by
    intro r
    by_cases h : r.name = name <;> simp [h, hgn]
  have hFv : ∀ r : Row, ((fun r => if r.name = name then g r else r) r).version
      = r.version := by
    intro r
    by_cases h : r.name = name <;> simp [h, hgv]
  have hp : ∀ r : Row,
      ((fun r : Row => r.name == n && r.version == v)
        ((fun r => if r.name = name then g r else r) r)) =
      ((fun r : Row => r.name == n && r.version == v) r) := by
    intro r
    simp only [hFn r, hFv r]
  unfold sq_get_version
  rw [find?_map_of_pred_inv _ _ _ hp]
  cases hf : q.find? (fun r => r.name == n && r.version == v) with
  | none => by_cases hn : n = name <;> simp [hn]
  | some r0 =>
    have hpr0 := List.find?_some hf
    simp only [Bool.and_eq_true, beq_iff_eq] at hpr0
    by_cases hn : n = name
    · subst hn
      have hcond : n = n := rfl
      rw [if_pos hcond]
      simp only [Option.map_map, Function.comp, Option.map_some']
      rw [if_pos (hpr0.1 : r0.name = n), hgd r0]
    · rw [if_neg hn]
      simp only [Option.map_map, Function.comp, Option.map_some']
      rw [if_neg (fun h : r0.name = name => hn (hpr0.1 ▸ h))]

theorem sq_get_version_count_zero (q : SqState) (name : String)
    (hc : q.countP (fun r => r.name == name) = 0) (v : String) :
    sq_get_version q name v = none := by
  unfold sq_get_version
  rw [List.find?_eq_none.mpr]
  · rfl
  · intro r hr
    have := List.countP_eq_zero.mp hc r hr
    simp only [Bool.and_eq_true, beq_iff_eq]
    exact fun h => this (by simp [h.1])

theorem sq_get_version_soft_delete (q : SqState) (name : String) (now : Nat)
    (n v : String) :
    sq_get_version (sq_soft_delete q name now).1 n v =
      if n = name then
        (sq_get_version q n v).map
          (fun r => { r with deleted := true, updated := now })
      else sq_get_version q n v := by
  by_cases hc : q.countP (fun r => r.name == name) = 0
  · simp only [sq_soft_delete]
    rw [if_pos hc]
    by_cases hn : n = name
    · subst hn
      rw [if_pos (rfl : n = n), sq_get_version_count_zero q n hc v]
      rfl
    · rw [if_neg hn]
  · simp only [sq_soft_delete]
    rw [if_neg hc]
    exact sq_get_version_map_guard q name
      (fun r => { r with deleted := true, updated := now })
      (fun r => { r with deleted := true, updated := now })
      (fun r => rfl) (fun r => rfl) (fun r => rfl) n v

theorem sq_get_version_recover (q : SqState) (name : String) (n v : String) :
    sq_get_version (sq_recover q name).1 n v =
      if n = name ∧ q.countP (fun r => r.name == name && r.deleted) ≠ 0 then
        (sq_get_version q n v).map (fun r => { r with deleted := false })
      else sq_get_version q n v := by
  by_cases hc : q.countP (fun r => r.name == name && r.deleted) = 0
  · simp only [sq_recover]
    rw [if_pos hc, if_neg (fun h => h.2 hc)]
  · simp only [sq_recover]
    rw [if_neg hc]
    have := sq_get_version_map_guard q name
      (fun r => { r with deleted := false })
      (fun r => { r with deleted := false })
      (fun r => rfl) (fun r => rfl) (fun r => rfl) n v
    rw [this]
    by_cases hn : n = name
    · rw [if_pos hn, if_pos ⟨hn, hc⟩]
    · rw [if_neg hn, if_neg (fun h => hn h.1)]

theorem mem_soft_delete_of_empty (s : MemState) (name : String) (now : Nat)
    (he : memVers s name = []) : (mem_soft_delete s name now).1 = s := by
  cases hmv : dictLookup s.mem name with
  | none => simp [mem_soft_delete, hmv]
  | some versions =>
    have : versions = [] := by simpa [memVers, hmv] using he
    subst this
    simp [mem_soft_delete, hmv]

theorem memVers_map_soft_delete (s : MemState) (name : String) (now : Nat)
    (hne : memVers s name ≠ []) :
    memVers (mem_soft_delete s name now).1 name =
      (memVers s name).map
        (fun p => (p.1, { p.2 with deleted := true, updated := now })) := by
  cases hmv : dictLookup s.mem name with
  | none => exact absurd (by simp [memVers, hmv]) hne
  | some versions =>
    have hvne : ¬versions.isEmpty := by
      intro he
      exact hne (by simp [memVers, hmv, List.isEmpty_iff.mp he])
    simp only [mem_soft_delete, hmv]
    rw [if_neg hvne]
    simp only [memVers, hmv, Option.getD_some]
    rw [dictLookup_dictSet_self]
    rfl

theorem sq_any_false_of_get_version_none (q : SqState) (name version : String)
    (h : sq_get_version q name version = none) :
    q.any (fun r => r.name == name && r.version == version) = false := by
  unfold sq_get_version at h
  have hf : q.find? (fun r => r.name == name && r.version == version) = none := by
    cases hfe : q.find? (fun r => r.name == name && r.version == version) with
    | none => rfl
    | some r0 => rw [hfe] at h; simp at h
  rw [List.any_eq_false]
  intro r hr
  exact fun hp => by
    rw [List.find?_eq_none] at hf
    exact hf r hr hp

/-- C8: no store operation changes the `value`, `tags`, `attributes` or
`created` fields of an already-stored version (only `deleted`, `enabled`
and `updated` may differ afterwards); a `put_secret` with a fresh version
id adds a brand-new `(name, version)` record without touching any other
one; consequently soft-delete followed by recover preserves every
version's value, tags, attributes and identifier.  Stated for both
backends over one arbitrary store call. -/
theorem c8_versions_immutable :
    ∀ (s : MemState) (q : SqState) (op : Op),
      memFresh s op → sqFresh q op →
      (∀ n v r, mem_get_version s n v = some r →
        ∃ r', mem_get_version (memStep s op).1 n v = some r' ∧
          r'.value = r.value ∧ r'.tags = r.tags ∧
          r'.attributes = r.attributes ∧ r'.created = r.created) ∧
      (∀ n v r, sq_get_version q n v = some r →
        ∃ r', sq_get_version (sqStep q op).1 n v = some r' ∧
          r'.value = r.value ∧ r'.tags = r.tags ∧
          r'.attributes = r.attributes ∧ r'.created = r.created) ∧
      (∀ name value tags attrs version now,
        op = .put name value tags attrs version now →
        ∀ n v, ¬(n = name ∧ v = version) →
          mem_get_version (memStep s op).1 n v = mem_get_version s n v ∧
          sq_get_version (sqStep q op).1 n v = sq_get_version q n v) ∧
      (∀ name now n v r, mem_get_version s n v = some r →
        ∃ r', mem_get_version
            (mem_recover (mem_soft_delete s name now).1 name).1 n v = some r' ∧
          r'.value = r.value ∧ r'.tags = r.tags ∧
          r'.attributes = r.attributes ∧ r'.created = r.created) := by
  intro s q op hmf hqf
  refine ⟨?_, ?_, ?_, ?_⟩
  · intro n v r h
    cases op with
    | put name value tags attrs version now =>
      show ∃ r', mem_get_version (mem_put_secret s name value tags attrs
        version now).1 n v = some r' ∧ _
      rw [mem_get_version_put]
      by_cases hcond : n = name ∧ v = version
      · obtain ⟨h1, h2⟩ := hcond
        subst h1; subst h2
        rw [(by exact hmf : mem_get_version s n v = none)] at h
        simp at h
      · rw [if_neg hcond]
        exact ⟨r, h, rfl, rfl, rfl, rfl⟩
    | getLatest name => exact ⟨r, h, rfl, rfl, rfl, rfl⟩
    | getVersion name version => exact ⟨r, h, rfl, rfl, rfl, rfl⟩
    | listVersions name => exact ⟨r, h, rfl, rfl, rfl, rfl⟩
    | listLatest => exact ⟨r, h, rfl, rfl, rfl, rfl⟩
    | getDeleted name => exact ⟨r, h, rfl, rfl, rfl, rfl⟩
    | softDelete name now =>
      show ∃ r', mem_get_version (mem_soft_delete s name now).1 n v
        = some r' ∧ _
      rw [mem_get_version_soft_delete]
      by_cases hcond : n = name ∧ memVers s name ≠ []
      · rw [if_pos hcond, h]
        exact ⟨_, rfl, rfl, rfl, rfl, rfl⟩
      · rw [if_neg hcond]
        exact ⟨r, h, rfl, rfl, rfl, rfl⟩
    | recoverOp name =>
      show ∃ r', mem_get_version (mem_recover s name).1 n v = some r' ∧ _
      rw [mem_get_version_recover]
      by_cases hcond : n = name ∧ memVers s name ≠ []
      · rw [if_pos hcond, h]
        exact ⟨_, rfl, rfl, rfl, rfl, rfl⟩
      · rw [if_neg hcond]
        exact ⟨r, h, rfl, rfl, rfl, rfl⟩
  · intro n v r h
    cases op with
    | put name value tags attrs version now =>
      have hany := sq_any_false_of_get_version_none q name version hqf
      have hstep : (sqStep q (.put name value tags attrs version now)).1 =
          q ++ [{ name := name, version := version, value := value,
                  tags := storeCol (tags.getD []),
                  attributes := storeCol (attrs.getD []),
                  enabled := true, deleted := false,
                  created := now, updated := now }] := by
        simp [sqStep, sq_put_secret, hany]
      rw [hstep]
      unfold sq_get_version at h ⊢
      obtain ⟨r0, hr0, hr0d⟩ := Option.map_eq_some'.mp h
      rw [find?_append_of_found _ _ _ _ hr0]
      exact ⟨r, by rw [← hr0d]; rfl, rfl, rfl, rfl, rfl⟩
    | getLatest name => exact ⟨r, h, rfl, rfl, rfl, rfl⟩
    | getVersion name version => exact ⟨r, h, rfl, rfl, rfl, rfl⟩
    | listVersions name => exact ⟨r, h, rfl, rfl, rfl, rfl⟩
    | listLatest => exact ⟨r, h, rfl, rfl, rfl, rfl⟩
    | getDeleted name => exact ⟨r, h, rfl, rfl, rfl, rfl⟩
    | softDelete name now =>
      show ∃ r', sq_get_version (sq_soft_delete q name now).1 n v = some r' ∧ _
      rw [sq_get_version_soft_delete]
      by_cases hcond : n = name
      · rw [if_pos hcond, h]
        exact ⟨_, rfl, rfl, rfl, rfl, rfl⟩
      · rw [if_neg hcond]
        exact ⟨r, h, rfl, rfl, rfl, rfl⟩
    | recoverOp name =>
      show ∃ r', sq_get_version (sq_recover q name).1 n v = some r' ∧ _
      rw [sq_get_version_recover]
      by_cases hcond : n = name ∧
          q.countP (fun r => r.name == name && r.deleted) ≠ 0
      · rw [if_pos hcond, h]
        exact ⟨_, rfl, rfl, rfl, rfl, rfl⟩
      · rw [if_neg hcond]
        exact ⟨r, h, rfl, rfl, rfl, rfl⟩
  · intro name value tags attrs version now hop n v hnv
    subst hop
    constructor
    · show mem_get_version (mem_put_secret s name value tags attrs
        version now).1 n v = mem_get_version s n v
      rw [mem_get_version_put, if_neg hnv]
    · have hany := sq_any_false_of_get_version_none q name version hqf
      have hstep : (sqStep q (.put name value tags attrs version now)).1 =
          q ++ [{ name := name, version := version, value := value,
                  tags := storeCol (tags.getD []),
                  attributes := storeCol (attrs.getD []),
                  enabled := true, deleted := false,
                  created := now, updated := now }] := by
        simp [sqStep, sq_put_secret, hany]
      rw [hstep]
      unfold sq_get_version
      rw [find?_append_single_of_neg]
      simp only [Bool.and_eq_false_iff, beq_eq_false_iff_ne, ne_eq]
      by_cases h1 : n = name
      · exact Or.inr (fun h2 => hnv ⟨h1, h2.symm⟩)
      · exact Or.inl (fun h2 => h1 h2.symm)
  · intro name now n v r h
    by_cases hc1 : n = name ∧ memVers s name ≠ []
    · have hmid : mem_get_version (mem_soft_delete s name now).1 n v =
          some { r with deleted := true, updated := now } := by
        rw [mem_get_version_soft_delete, if_pos hc1, h]
        rfl
      have hne1 : memVers (mem_soft_delete s name now).1 name ≠ [] := by
        rw [memVers_map_soft_delete s name now hc1.2]
        simpa using hc1.2
      rw [mem_get_version_recover, if_pos ⟨hc1.1, hne1⟩, hmid]
      exact ⟨_, rfl, rfl, rfl, rfl, rfl⟩
    · by_cases hn : n = name
      · have hemp : memVers s name = [] := by
          by_contra hne
          exact hc1 ⟨hn, hne⟩
        rw [mem_soft_delete_of_empty s name now hemp]
        rw [mem_get_version_recover,
          if_neg (fun hh => hh.2 (by simpa [hn] using hemp)), h]
        exact ⟨r, rfl, rfl, rfl, rfl, rfl⟩
      · have hmid : mem_get_version (mem_soft_delete s name now).1 n v =
            some r := by
          rw [mem_get_version_soft_delete, if_neg (fun hh => hn hh.1)]
          exact h
        rw [mem_get_version_recover, if_neg (fun hh => hn hh.1), hmid]
        exact ⟨r, rfl, rfl, rfl, rfl, rfl⟩

/-- C8, witness: the immutability theorem applied to a store holding one
version and a concrete soft-delete call. -/
theorem c8_witness :
    ∃ r', mem_get_version
        (memStep (mem_put_secret MemState.init "a" "x" none none "v1" 0).1
          (.softDelete "a" 9)).1 "a" "v1" = some r' ∧
      r'.value = "x" ∧ r'.tags = ([] : JObj) ∧
      r'.attributes = ([] : JObj) ∧ r'.created = 0 := by
  have h := c8_versions_immutable
    (mem_put_secret MemState.init "a" "x" none none "v1" 0).1 []
    (.softDelete "a" 9) trivial trivial
  exact h.1 "a" "v1"
    { value := "x", tags := [], attributes := [], enabled := true,
      deleted := false, created := 0, updated := 0 } (by decide)

theorem foldl_min_updated_spec (t : List Row) (a : Nat) :
    (t.foldl (fun m q => if q.updated < m then q.updated else m) a = a ∨
      ∃ r ∈ t,
        t.foldl (fun m q => if q.updated < m then q.updated else m) a
          = r.updated) ∧
    t.foldl (fun m q => if q.updated < m then q.updated else m) a ≤ a ∧
    ∀ r ∈ t,
      t.foldl (fun m q => if q.updated < m then q.updated else m) a
        ≤ r.updated := by
  induction t generalizing a with
  | nil => simp
  | cons q u ih =>
    simp only [List.foldl_cons]
    by_cases hlt : q.updated < a
    · rw [if_pos hlt]
      obtain ⟨h1, h2, h3⟩ := ih q.updated
      refine ⟨?_, by omega, ?_⟩
      · rcases h1 with h1 | ⟨r, hr, hre⟩
        · exact Or.inr ⟨q, List.mem_cons_self _ _, h1⟩
        · exact Or.inr ⟨r, List.mem_cons_of_mem _ hr, hre⟩
      · intro r hr
        rcases List.mem_cons.mp hr with hr | hr
        · subst hr
          omega
        · exact h3 r hr
    · rw [if_neg hlt]
      obtain ⟨h1, h2, h3⟩ := ih a
      refine ⟨?_, h2, ?_⟩
      · rcases h1 with h1 | ⟨r, hr, hre⟩
        · exact Or.inl h1
        · exact Or.inr ⟨r, List.mem_cons_of_mem _ hr, hre⟩
      · intro r hr
        rcases List.mem_cons.mp hr with hr | hr
        · subst hr
          omega
        · exact h3 r hr

theorem minUpdated_eq_none_iff (l : List Row) : minUpdated l = none ↔ l = [] := by
  cases l <;> simp [minUpdated]

theorem minUpdated_spec (l : List Row) (m : Nat) (h : minUpdated l = some m) :
    (∃ r ∈ l, r.updated = m) ∧ ∀ r ∈ l, m ≤ r.updated := by
  cases l with
  | nil => simp [minUpdated] at h
  | cons r t =>
    simp only [minUpdated, Option.some.injEq] at h
    obtain ⟨h1, h2, h3⟩ := foldl_min_updated_spec t r.updated
    subst h
    constructor
    · rcases h1 with h1 | ⟨r0, hr0, hre⟩
      · exact ⟨r, List.mem_cons_self _ _, h1.symm⟩
      · exact ⟨r0, List.mem_cons_of_mem _ hr0, hre.symm⟩
    · intro r0 hr0
      rcases List.mem_cons.mp hr0 with hr0 | hr0
      · subst hr0
        exact h2
      · exact h3 r0 hr0

theorem memVers_put_self (s : MemState) (name value : String)
    (tags attrs : Option JObj) (version : String) (now : Nat) :
    memVers (mem_put_secret s name value tags attrs version now).1 name =
      dictSet (memVers s name) version
        { value := value, tags := tags.getD [], attributes := attrs.getD [],
          enabled := true, deleted := false, created := now, updated := now } := by
  simp only [mem_put_secret, memVers]
  rw [dictLookup_dictSet_self]
  rfl

theorem memVers_put_other (s : MemState) (name value : String)
    (tags attrs : Option JObj) (version : String) (now : Nat) (n : String)
    (hn : n ≠ name) :
    memVers (mem_put_secret s name value tags attrs version now).1 n =
      memVers s n := by
  simp only [mem_put_secret, memVers]
  rw [dictLookup_dictSet_ne _ _ _ _ hn]

theorem memVers_soft_delete_other (s : MemState) (name : String) (now : Nat)
    (n : String) (hn : n ≠ name) :
    memVers (mem_soft_delete s name now).1 n = memVers s n := by
  cases hmv : dictLookup s.mem name with
  | none => simp [mem_soft_delete, hmv]
  | some versions =>
    by_cases he : versions.isEmpty
    · simp [mem_soft_delete, hmv, he]
    · simp only [mem_soft_delete, hmv]
      rw [if_neg he]
      simp only [memVers]
      rw [dictLookup_dictSet_ne _ _ _ _ hn]

theorem mem_soft_delete_deleted_dict (s : MemState) (name : String) (now : Nat)
    (hne : memVers s name ≠ []) :
    (mem_soft_delete s name now).1.deleted =
      dictSet s.deleted name ⟨now, now + 86400 * 7⟩ := by
  cases hmv : dictLookup s.mem name with
  | none => exact absurd (by simp [memVers, hmv]) hne
  | some versions =>
    have hvne : ¬versions.isEmpty := by
      intro he
      exact hne (by simp [memVers, hmv, List.isEmpty_iff.mp he])
    simp only [mem_soft_delete, hmv]
    rw [if_neg hvne]

theorem mem_recover_of_empty (s : MemState) (name : String)
    (he : memVers s name = []) : (mem_recover s name).1 = s := by
  cases hmv : dictLookup s.mem name with
  | none => simp [mem_recover, hmv]
  | some versions =>
    have : versions = [] := by simpa [memVers, hmv] using he
    subst this
    simp [mem_recover, hmv]

theorem memVers_map_recover (s : MemState) (name : String)
    (hne : memVers s name ≠ []) :
    memVers (mem_recover s name).1 name =
      (memVers s name).map (fun p => (p.1, { p.2 with deleted := false })) := by
  cases hmv : dictLookup s.mem name with
  | none => exact absurd (by simp [memVers, hmv]) hne
  | some versions =>
    have hvne : ¬versions.isEmpty := by
      intro he
      exact hne (by simp [memVers, hmv, List.isEmpty_iff.mp he])
    simp only [mem_recover, hmv]
    rw [if_neg hvne]
    simp only [memVers, hmv, Option.getD_some]
    rw [dictLookup_dictSet_self]
    rfl

theorem memVers_recover_other (s : MemState) (name : String) (n : String)
    (hn : n ≠ name) :
    memVers (mem_recover s name).1 n = memVers s n := by
  cases hmv : dictLookup s.mem name with
  | none => simp [mem_recover, hmv]
  | some versions =>
    by_cases he : versions.isEmpty
    · simp [mem_recover, hmv, he]
    · simp only [mem_recover, hmv]
      rw [if_neg he]
      simp only [memVers]
      rw [dictLookup_dictSet_ne _ _ _ _ hn]

theorem mem_recover_deleted_dict (s : MemState) (name : String)
    (hne : memVers s name ≠ []) :
    (mem_recover s name).1.deleted = dictRemove s.deleted name := by
  cases hmv : dictLookup s.mem name with
  | none => exact absurd (by simp [memVers, hmv]) hne
  | some versions =>
    have hvne : ¬versions.isEmpty := by
      intro he
      exact hne (by simp [memVers, hmv, List.isEmpty_iff.mp he])
    simp only [mem_recover, hmv]
    rw [if_neg hvne]

theorem memDelInv_init : memDelInv MemState.init := by
  intro name
  constructor
  · intro _
    simp [memDeletedVers, memVers, MemState.init, dictLookup]
  · intro dr hdr
    simp [MemState.init, dictLookup] at hdr

theorem memDelInv_put (s : MemState) (name value : String)
    (tags attrs : Option JObj) (version : String) (now : Nat)
    (hfresh : mem_get_version s name version = none) (hinv : memDelInv s) :
    memDelInv (mem_put_secret s name value tags attrs version now).1 := by
  intro n
  have hdel : (mem_put_secret s name value tags attrs version now).1.deleted
      = s.deleted := rfl
  have hdv : memDeletedVers (mem_put_secret s name value tags attrs
      version now).1 n = memDeletedVers s n := by
    by_cases hn : n = name
    · subst hn
      unfold memDeletedVers
      rw [memVers_put_self]
      rw [dictSet_of_not_mem _ _ _
        ((dictLookup_eq_none_iff _ _).mp hfresh)]
      rw [List.filter_append]
      simp
    · unfold memDeletedVers
      rw [memVers_put_other _ _ _ _ _ _ _ _ hn]
  rw [hdel, hdv]
  exact hinv n

theorem memDelInv_soft_delete (s : MemState) (name : String) (now : Nat)
    (hinv : memDelInv s) : memDelInv (mem_soft_delete s name now).1 := by
  by_cases hemp : memVers s name = []
  · rw [mem_soft_delete_of_empty s name now hemp]
    exact hinv
  · intro n
    by_cases hn : n = name
    · subst hn
      have hrec : dictLookup (mem_soft_delete s n now).1.deleted n =
          some ⟨now, now + 86400 * 7⟩ := by
        rw [mem_soft_delete_deleted_dict s n now hemp,
          dictLookup_dictSet_self]
      have hdv : memDeletedVers (mem_soft_delete s n now).1 n =
          (memVers s n).map
            (fun p => (p.1, { p.2 with deleted := true, updated := now })) := by
        unfold memDeletedVers
        rw [memVers_map_soft_delete s n now hemp]
        rw [List.filter_eq_self.mpr]
        intro p hp
        obtain ⟨p0, _, hpe⟩ := List.mem_map.mp hp
        subst hpe
        rfl
      constructor
      · intro hnone
        rw [hrec] at hnone
        exact absurd hnone (by simp)
      · intro dr hdr
        rw [hrec] at hdr
        simp only [Option.some.injEq] at hdr
        subst hdr
        refine ⟨?_, ?_, rfl⟩
        · rw [hdv]
          simpa using hemp
        · intro p hp
          rw [hdv] at hp
          obtain ⟨p0, _, hpe⟩ := List.mem_map.mp hp
          subst hpe
          rfl
    · have h1 : memDeletedVers (mem_soft_delete s name now).1 n =
          memDeletedVers s n := by
        unfold memDeletedVers
        rw [memVers_soft_delete_other s name now n hn]
      have h2 : dictLookup (mem_soft_delete s name now).1.deleted n =
          dictLookup s.deleted n := by
        rw [mem_soft_delete_deleted_dict s name now hemp,
          dictLookup_dictSet_ne _ _ _ _ hn]
      rw [h1, h2]
      exact hinv n

theorem memDelInv_recover (s : MemState) (name : String)
    (hinv : memDelInv s) : memDelInv (mem_recover s name).1 := by
  by_cases hemp : memVers s name = []
  · rw [mem_recover_of_empty s name hemp]
    exact hinv
  · intro n
    by_cases hn : n = name
    · subst hn
      have hrec : dictLookup (mem_recover s n).1.deleted n = none := by
        rw [mem_recover_deleted_dict s n hemp, dictLookup_dictRemove_self]
      have hdv : memDeletedVers (mem_recover s n).1 n = [] := by
        unfold memDeletedVers
        rw [memVers_map_recover s n hemp]
        rw [List.filter_eq_nil_iff]
        intro p hp
        obtain ⟨p0, _, hpe⟩ := List.mem_map.mp hp
        subst hpe
        simp
      constructor
      · intro _
        exact hdv
      · intro dr hdr
        rw [hrec] at hdr
        exact absurd hdr (by simp)
    · have h1 : memDeletedVers (mem_recover s name).1 n =
          memDeletedVers s n := by
        unfold memDeletedVers
        rw [memVers_recover_other s name n hn]
      have h2 : dictLookup (mem_recover s name).1.deleted n =
          dictLookup s.deleted n := by
        rw [mem_recover_deleted_dict s name hemp,
          dictLookup_dictRemove_ne _ _ _ hn]
      rw [h1, h2]
      exact hinv n

theorem memDelInv_of_reach (s : MemState) (h : MemReach s) : memDelInv s := by
  induction h with
  | init => exact memDelInv_init
  | put name value tags attrs version now _ hfresh ih =>
    exact memDelInv_put _ name value tags attrs version now hfresh ih
  | softDelete name now _ ih => exact memDelInv_soft_delete _ name now ih
  | recoverStep name _ ih => exact memDelInv_recover _ name ih

/-- C7: `get_deleted` returns NotFound exactly when the name currently
has no deleted version, and a returned record's `deletedDate` is the
minimum `updated` among the name's deleted versions, with
`scheduledPurgeDate = deletedDate + 604800`.  For the SQLite backend
(which computes `MIN(updated)` directly) this holds for every table
state; for the memory backend (which stores the record at soft-delete
time) it holds for every state reachable from the empty store. -/
theorem c7_get_deleted_contract :
    (∀ (q : SqState) (name : String),
      (sq_get_deleted q name = none ↔ sqDeletedRows q name = []) ∧
      ∀ dr, sq_get_deleted q name = some dr →
        (∃ r ∈ sqDeletedRows q name, r.updated = dr.deletedDate) ∧
        (∀ r ∈ sqDeletedRows q name, dr.deletedDate ≤ r.updated) ∧
        dr.scheduledPurgeDate = dr.deletedDate + 604800) ∧
    (∀ s : MemState, MemReach s → ∀ name,
      (mem_get_deleted s name = none ↔ memDeletedVers s name = []) ∧
      ∀ dr, mem_get_deleted s name = some dr →
        (∃ p ∈ memDeletedVers s name, p.2.updated = dr.deletedDate) ∧
        (∀ p ∈ memDeletedVers s name, dr.deletedDate ≤ p.2.updated) ∧
        dr.scheduledPurgeDate = dr.deletedDate + 604800) := by
  constructor
  · intro q name
    constructor
    · unfold sq_get_deleted
      cases hm : minUpdated (sqDeletedRows q name) with
      | none => simpa using (minUpdated_eq_none_iff _).mp hm
      | some m =>
        simp only [reduceCtorEq, false_iff]
        intro hnil
        rw [hnil] at hm
        simp [minUpdated] at hm
    · intro dr hdr
      unfold sq_get_deleted at hdr
      cases hm : minUpdated (sqDeletedRows q name) with
      | none => rw [hm] at hdr; simp at hdr
      | some m =>
        rw [hm] at hdr
        simp only [Option.some.injEq] at hdr
        subst hdr
        obtain ⟨hex, hall⟩ := minUpdated_spec _ _ hm
        exact ⟨hex, hall, by show m + 86400 * 7 = m + 604800; omega⟩
  · intro s hreach name
    have hinv := memDelInv_of_reach s hreach name
    constructor
    · constructor
      · intro h
        exact hinv.1 h
      · intro h
        cases hlook : mem_get_deleted s name with
        | none => rfl
        | some dr =>
          exact absurd h (hinv.2 dr hlook).1
    · intro dr hdr
      obtain ⟨hne, hall, hsched⟩ := hinv.2 dr hdr
      obtain ⟨p, hp⟩ := List.exists_mem_of_ne_nil _ hne
      refine ⟨⟨p, hp, hall p hp⟩, ?_, ?_⟩
      · intro p0 hp0
        exact (hall p0 hp0).ge
      · rw [hsched]

/-- C7, witness: the contract applied to the reachable memory state with
one version of `"a"` created at 0 and soft-deleted at 3, and to a
concrete one-row table on the SQLite side. -/
theorem c7_witness :
    (∃ p ∈ memDeletedVers
        (mem_soft_delete
          (mem_put_secret MemState.init "a" "x" none none "v1" 0).1 "a" 3).1
        "a", p.2.updated = 3) ∧
    (∃ r ∈ sqDeletedRows
        [{ name := "a", version := "v1", value := "x", tags := none,
           attributes := none, enabled := true, deleted := true,
           created := 0, updated := 3 }] "a", r.updated = 3) := by
  have hreach : MemReach (mem_soft_delete
      (mem_put_secret MemState.init "a" "x" none none "v1" 0).1 "a" 3).1 :=
    MemReach.softDelete "a" 3
      (MemReach.put "a" "x" none none "v1" 0 MemReach.init (by decide))
  constructor
  · have h := (c7_get_deleted_contract.2 _ hreach "a").2
      ⟨3, 3 + 604800⟩ (by decide)
    exact h.1
  · have h := (c7_get_deleted_contract.1
      [{ name := "a", version := "v1", value := "x", tags := none,
         attributes := none, enabled := true, deleted := true,
         created := 0, updated := 3 }] "a").2 ⟨3, 3 + 604800⟩ (by decide)
    exact h.1

theorem char_valid_bounds (c : Char) :
    c.toNat < 55296 ∨ (57343 < c.toNat ∧ c.toNat < 1114112) := by
  have he : c.toNat = c.val.toNat := rfl
  rcases c.valid with h | h
  · left
    omega
  · right
    omega

theorem charOfNat_toNat (c : Char) : Char.ofNat c.toNat = c :=
  Char.ofNat_toNat c

theorem hexDigitVal_hexDigit (d : Nat) (h : d < 16) :
    hexDigitVal (hexDigit d) = some d := by
  interval_cases d <;> decide

theorem hex4val_hex4 (n : Nat) (h : n < 65536) :
    hex4val (hexDigit (n / 4096 % 16)) (hexDigit (n / 256 % 16))
      (hexDigit (n / 16 % 16)) (hexDigit (n % 16)) = some n := by
  have h1 := hexDigitVal_hexDigit (n / 4096 % 16) (by omega)
  have h2 := hexDigitVal_hexDigit (n / 256 % 16) (by omega)
  have h3 := hexDigitVal_hexDigit (n / 16 % 16) (by omega)
  have h4 := hexDigitVal_hexDigit (n % 16) (by omega)
  unfold hex4val
  rw [h1, h2, h3, h4]
  dsimp only
  congr 1
  omega

theorem parseStrBodyF_surrogate (fuel : Nat) (n m : Nat)
    (a b c' d e f g h : Char) (l : List Char)
    (hv1 : hex4val a b c' d = some n) (hv2 : hex4val e f g h = some m)
    (hr1 : 55296 ≤ n ∧ n < 56320) (hr2 : 56320 ≤ m ∧ m < 57344) :
    parseStrBodyF (fuel + 1)
        (bsc :: 'u' :: a :: b :: c' :: d :: bsc :: 'u' :: e :: f :: g :: h :: l) =
      match parseStrBodyF fuel l with
      | none => none
      | some (cs, rem) =>
        some (Char.ofNat (65536 + (n - 55296) * 1024 + (m - 56320)) :: cs, rem) := by
  simp only [parseStrBodyF, if_true, and_self]
  rw [hv1]
  dsimp only
  rw [if_pos hr1]
  rw [hv2]
  dsimp only
  rw [if_pos hr2]
  rw [if_neg (show ¬(bsc = qc) by decide)]

theorem parseStrBodyF_escChar (c : Char) (fuel : Nat) (l : List Char) :
    parseStrBodyF (fuel + 1) (escChar c ++ l) =
      match parseStrBodyF fuel l with
      | none => none
      | some (cs, rem) => some (c :: cs, rem) := by
  by_cases h1 : c = qc
  · subst h1; rfl
  by_cases h2 : c = bsc
  · subst h2; rfl
  by_cases h3 : 32 ≤ c.toNat ∧ c.toNat ≤ 126
  · have hesc : escChar c = [c] := by
      unfold escChar
      rw [if_neg h1, if_neg h2, if_pos h3]
    rw [hesc]
    show parseStrBodyF (fuel + 1) (c :: l) = _
    simp only [parseStrBodyF]
    rw [if_neg h1, if_neg h2]
  by_cases h4 : c = Char.ofNat 8
  · subst h4; rfl
  by_cases h5 : c = Char.ofNat 9
  · subst h5; rfl
  by_cases h6 : c = Char.ofNat 10
  · subst h6; rfl
  by_cases h7 : c = Char.ofNat 12
  · subst h7; rfl
  by_cases h8 : c = Char.ofNat 13
  · subst h8; rfl
  have hval := char_valid_bounds c
  by_cases h9 : c.toNat < 65536
  · have hesc : escChar c = bsc :: 'u' :: hex4 c.toNat := by
      unfold escChar
      rw [if_neg h1, if_neg h2, if_neg h3, if_neg h4, if_neg h5, if_neg h6,
        if_neg h7, if_neg h8, if_pos h9]
    rw [hesc]
    simp only [hex4, List.cons_append, List.nil_append]
    simp only [parseStrBodyF, if_true]
    rw [hex4val_hex4 c.toNat h9]
    dsimp only
    rw [if_neg (show ¬(55296 ≤ c.toNat ∧ c.toNat < 56320) by omega),
      if_neg (show ¬(56320 ≤ c.toNat ∧ c.toNat < 57344) by omega),
      charOfNat_toNat]
    rw [if_neg (show ¬(bsc = qc) by decide)]
  · have hesc : escChar c =
        (bsc :: 'u' :: hex4 (55296 + (c.toNat - 65536) / 1024)) ++
        (bsc :: 'u' :: hex4 (56320 + (c.toNat - 65536) % 1024)) := by
      unfold escChar
      rw [if_neg h1, if_neg h2, if_neg h3, if_neg h4, if_neg h5, if_neg h6,
        if_neg h7, if_neg h8, if_neg h9]
    rw [hesc]
    simp only [hex4, List.cons_append, List.nil_append, List.append_assoc]
    rw [parseStrBodyF_surrogate fuel (55296 + (c.toNat - 65536) / 1024)
      (56320 + (c.toNat - 65536) % 1024) _ _ _ _ _ _ _ _ l
      (hex4val_hex4 _ (by omega)) (hex4val_hex4 _ (by omega))
      (by omega) (by omega)]
    cases hpl : parseStrBodyF fuel l with
    | none => rfl
    | some p =>
      obtain ⟨cs, rem⟩ := p
      dsimp only
      have hE : 65536 + (55296 + (c.toNat - 65536) / 1024 - 55296) * 1024 +
          (56320 + (c.toNat - 65536) % 1024 - 56320) = c.toNat := by omega
      rw [hE, charOfNat_toNat]

theorem parseStrBodyF_escList (cs : List Char) :
    ∀ (fuel : Nat) (rest : List Char), cs.length < fuel →
      parseStrBodyF fuel (escList cs ++ qc :: rest) = some (cs, rest) := by
  induction cs with
  | nil =>
    intro fuel rest hf
    obtain ⟨f, rfl⟩ : ∃ f, fuel = f + 1 := ⟨fuel - 1, by omega⟩
    rfl
  | cons c t ih =>
    intro fuel rest hf
    obtain ⟨f, rfl⟩ : ∃ f, fuel = f + 1 := ⟨fuel - 1, by omega⟩
    rw [escList, List.append_assoc, parseStrBodyF_escChar]
    rw [ih f rest (by simp at hf; omega)]

theorem escChar_length_pos (c : Char) : 1 ≤ (escChar c).length := by
  unfold escChar
  split_ifs <;> simp [hex4]

theorem escList_length (cs : List Char) : cs.length ≤ (escList cs).length := by
  induction cs with
  | nil => simp [escList]
  | cons c t ih =>
    rw [escList, List.length_append]
    have := escChar_length_pos c
    simp only [List.length_cons]
    omega

theorem parseStrBody_escList (cs rest : List Char) :
    parseStrBody (escList cs ++ qc :: rest) = some (cs, rest) := by
  unfold parseStrBody
  apply parseStrBodyF_escList
  have := escList_length cs
  simp only [List.length_append, List.length_cons]
  omega

theorem stringMk_data (s : String) : String.mk s.data = s := rfl

theorem hexDigit_isDigit (n : Nat) (h : n < 10) :
    (hexDigit n).isDigit = true := by
  interval_cases n <;> decide

theorem hexDigit_toNat (n : Nat) (h : n < 10) : (hexDigit n).toNat = 48 + n := by
  interval_cases n <;> decide

theorem natDigits_head (n : Nat) :
    ∃ d t, natDigits n = d :: t ∧ d.isDigit = true := by
  induction n using Nat.strong_induction_on with
  | _ n ih =>
    rw [natDigits]
    by_cases h : n < 10
    · rw [dif_pos h]
      exact ⟨_, _, rfl, hexDigit_isDigit n h⟩
    · rw [dif_neg h]
      obtain ⟨d, t, hdt, hd⟩ := ih (n / 10) (Nat.div_lt_self (by omega) (by omega))
      rw [hdt]
      exact ⟨d, t ++ [hexDigit (n % 10)], rfl, hd⟩

theorem parseDigits_natDigits (n : Nat) :
    ∀ (acc : Nat) (rest : List Char),
      parseDigits (natDigits n ++ rest) acc =
        parseDigits rest (acc * 10 ^ (natDigits n).length + n) := by
  induction n using Nat.strong_induction_on with
  | _ n ih =>
    intro acc rest
    by_cases h : n < 10
    · rw [natDigits, dif_pos h]
      show parseDigits (hexDigit n :: rest) acc = _
      simp only [parseDigits]
      rw [if_pos (hexDigit_isDigit n h), hexDigit_toNat n h]
      simp only [List.length_cons, List.length_nil]
      congr 1
      simp only [pow_one, zero_add]
      omega
    · rw [natDigits, dif_neg h]
      rw [List.append_assoc,
        ih (n / 10) (Nat.div_lt_self (by omega) (by omega)) acc
          ([hexDigit (n % 10)] ++ rest)]
      show parseDigits (hexDigit (n % 10) :: rest) _ = _
      simp only [parseDigits]
      rw [if_pos (hexDigit_isDigit (n % 10) (by omega)),
        hexDigit_toNat (n % 10) (by omega)]
      congr 1
      simp only [List.length_append, List.length_cons, List.length_nil]
      rw [pow_succ]
      have hdm := Nat.div_add_mod n 10
      ring_nf
      omega

theorem parseDigits_no_digit (l : List Char) (a : Nat) (h : noLeadingDigit l) :
    parseDigits l a = (a, l) := by
  cases l with
  | nil => rfl
  | cons c t =>
    have hc := h c rfl
    simp only [parseDigits]
    rw [if_neg (by simp [hc])]

theorem parseDigits_natDigits_done (n : Nat) (rest : List Char)
    (h : noLeadingDigit rest) :
    parseDigits (natDigits n ++ rest) 0 = (n, rest) := by
  rw [parseDigits_natDigits n 0 rest, parseDigits_no_digit rest _ h]
  simp

theorem digit_facts (c : Char) (h : c.isDigit = true) :
    ¬c = qc ∧ ¬c = '-' ∧ ¬c = 't' ∧ ¬c = 'f' := by
  refine ⟨?_, ?_, ?_, ?_⟩ <;> (intro he; subst he; exact absurd h (by decide))

theorem parseJVal_encJVal (v : JVal) (rest : List Char)
    (h : noLeadingDigit rest) :
    parseJVal (encJVal v ++ rest) = some (v, rest) := by
  cases v with
  | jstr s =>
    show parseJVal ((qc :: (escList s.data ++ [qc])) ++ rest) = _
    rw [List.cons_append, List.append_assoc]
    show parseJVal (qc :: (escList s.data ++ (qc :: rest))) = _
    simp only [parseJVal, if_true]
    rw [parseStrBody_escList s.data rest]
  | jint i =>
    by_cases hneg : i < 0
    · show parseJVal ((if i < 0 then _ else _) ++ rest) = _
      rw [if_pos hneg, List.cons_append]
      simp only [parseJVal, if_true]
      obtain ⟨d, t, hdt, hd⟩ := natDigits_head i.natAbs
      rw [hdt, List.cons_append]
      dsimp only
      rw [if_pos hd]
      rw [show d :: (t ++ rest) = natDigits i.natAbs ++ rest by rw [hdt]; rfl]
      rw [parseDigits_natDigits_done i.natAbs rest h]
      dsimp only
      have hni : -(i.natAbs : Int) = i := by omega
      rw [hni]
      rw [if_neg (show ¬('-' : Char) = qc by decide)]
    · show parseJVal ((if i < 0 then _ else _) ++ rest) = _
      rw [if_neg hneg]
      obtain ⟨d, t, hdt, hd⟩ := natDigits_head i.toNat
      obtain ⟨hq, hm, ht, hf⟩ := digit_facts d hd
      rw [hdt, List.cons_append]
      simp only [parseJVal]
      rw [if_neg hq, if_neg hm, if_pos hd]
      rw [show d :: (t ++ rest) = natDigits i.toNat ++ rest by rw [hdt]; rfl]
      rw [parseDigits_natDigits_done i.toNat rest h]
      dsimp only
      have hni : (i.toNat : Int) = i := by omega
      rw [hni]
  | jbool b => cases b <;> rfl

theorem noLeadingDigit_cons (c : Char) (h : c.isDigit = false)
    (l : List Char) : noLeadingDigit (c :: l) := by
  intro d hd
  simp only [List.head?_cons, Option.some.injEq] at hd
  subst hd
  exact h

theorem parseEntries_encEntries (m : JObj) :
    ∀ (fuel : Nat) (rest : List Char), m ≠ [] → m.length ≤ fuel →
      parseEntries fuel (encEntries m ++ rbraceC :: rest) = some (m, rest) := by
  induction m with
  | nil =>
    intro fuel rest hne _
    exact absurd rfl hne
  | cons p t ih =>
    obtain ⟨k, v⟩ := p
    intro fuel rest _ hf
    obtain ⟨f, rfl⟩ : ∃ f, fuel = f + 1 :=
      ⟨fuel - 1, by simp only [List.length_cons] at hf; omega⟩
    cases t with
    | nil =>
      show parseEntries (f + 1)
        ((encStrL k ++ ':' :: encJVal v) ++ rbraceC :: rest) = _
      rw [show (encStrL k ++ ':' :: encJVal v) ++ rbraceC :: rest =
          qc :: (escList k.data ++ qc ::
            (':' :: (encJVal v ++ rbraceC :: rest))) by
        simp [encStrL]]
      simp only [parseEntries, if_true]
      rw [parseStrBody_escList]
      dsimp only
      rw [parseJVal_encJVal v (rbraceC :: rest)
        (noLeadingDigit_cons rbraceC (by decide) rest)]
      dsimp only
      rw [if_neg (show ¬rbraceC = ',' by decide),
        if_pos (show rbraceC = rbraceC from rfl), stringMk_data]
      rw [if_pos (show (':' : Char) = ':' from rfl)]
    | cons p2 t2 =>
      show parseEntries (f + 1)
        ((encStrL k ++ ':' :: encJVal v ++ ',' :: encEntries (p2 :: t2)) ++
          rbraceC :: rest) = _
      rw [show (encStrL k ++ ':' :: encJVal v ++ ',' :: encEntries (p2 :: t2))
          ++ rbraceC :: rest =
          qc :: (escList k.data ++ qc :: (':' :: (encJVal v ++
            ',' :: (encEntries (p2 :: t2) ++ rbraceC :: rest)))) by
        simp [encStrL]]
      simp only [parseEntries, if_true]
      rw [parseStrBody_escList]
      dsimp only
      rw [parseJVal_encJVal v
        (',' :: (encEntries (p2 :: t2) ++ rbraceC :: rest))
        (noLeadingDigit_cons ',' (by decide) _)]
      dsimp only
      rw [if_pos (show (',' : Char) = ',' from rfl)]
      rw [ih f rest (by simp) (by simp only [List.length_cons] at hf ⊢; omega)]
      rw [stringMk_data]
      rw [if_pos (show (':' : Char) = ':' from rfl)]

theorem dictUnion_eq_append (m : List (String × α)) :
    ∀ acc, nodupKeys m → (∀ k ∈ dictKeys acc, k ∉ dictKeys m) →
      dictUnion acc m = acc ++ m := by
  induction m with
  | nil =>
    intro acc _ _
    simp [dictUnion]
  | cons p t ih =>
    obtain ⟨k, v⟩ := p
    intro acc hnd hdisj
    simp only [nodupKeys, dictKeys, List.map_cons, List.nodup_cons] at hnd
    simp only [dictUnion]
    have hknotacc : k ∉ dictKeys acc := fun hmem =>
      hdisj k hmem (by simp [dictKeys])
    rw [dictSet_of_not_mem _ _ _ hknotacc]
    rw [ih (acc ++ [(k, v)]) (by simpa [nodupKeys, dictKeys] using hnd.2) ?_]
    · simp
    · intro k' hk' hk't
      rw [dictKeys_append] at hk'
      rcases List.mem_append.mp hk' with hk1 | hk1
      · have hmem : k' ∈ dictKeys ((k, v) :: t) := by
          simp only [dictKeys, List.map_cons, List.mem_cons]
          exact Or.inr hk't
        exact hdisj k' hk1 hmem
      · have hkk : k' = k := by simpa [dictKeys] using hk1
        subst hkk
        exact hnd.1 (by simpa [dictKeys] using hk't)

theorem objFromEntries_eq (m : JObj) (h : nodupKeys m) :
    objFromEntries m = m := by
  unfold objFromEntries
  rw [dictUnion_eq_append m [] h (by simp [dictKeys])]
  simp

theorem encEntries_head (m : JObj) (h : m ≠ []) :
    ∃ tl, encEntries m = qc :: tl := by
  cases m with
  | nil => exact absurd rfl h
  | cons p t =>
    obtain ⟨k, v⟩ := p
    cases t with
    | nil => exact ⟨_, rfl⟩
    | cons q u => exact ⟨_, rfl⟩

theorem length_le_encEntries (m : JObj) :
    m.length ≤ (encEntries m).length := by
  induction m with
  | nil => simp [encEntries]
  | cons p t ih =>
    obtain ⟨k, v⟩ := p
    cases t with
    | nil => simp [encEntries, encStrL]
    | cons q u =>
      show (q :: u).length + 1 ≤ (encStrL k ++ ':' :: encJVal v ++
        ',' :: encEntries (q :: u)).length
      simp only [List.length_append, List.length_cons, encStrL] at ih ⊢
      omega

theorem json_parse_dumps (m : JObj) (hne : m ≠ []) (hnd : nodupKeys m) :
    json_parse (json_dumps m) = some m := by
  obtain ⟨tl, htl⟩ := encEntries_head m hne
  have hfuel : m.length ≤ (lbraceC :: (encEntries m ++ [rbraceC])).length := by
    have := length_le_encEntries m
    simp only [List.length_cons, List.length_append]
    omega
  have hp := parseEntries_encEntries m
    ((lbraceC :: (encEntries m ++ [rbraceC])).length) [] hne hfuel
  unfold json_dumps json_parse
  dsimp only
  rw [if_pos (rfl : lbraceC = lbraceC)]
  rw [htl]
  simp only [List.cons_append]
  rw [if_neg (show ¬qc = rbraceC by decide)]
  rw [htl] at hp
  simp only [List.cons_append] at hp
  rw [hp]
  dsimp only
  rw [if_pos rfl, objFromEntries_eq m hnd]

/-- C9: the serialized mapping columns of the durable backend round-trip
exactly — for every mapping `m` (distinct keys, string/int/bool scalar
values), decoding the stored column encoding of `m` (`(m and
json_dumps(m)) or None` on write, `json_loads(col) or \x7b\x7d` on read)
yields `m` again, and an absent (`NULL`) or empty mapping reads back as
the empty mapping. -/
theorem c9_column_roundtrip :
    ∀ m : JObj, nodupKeys m →
      readCol (storeCol m) = m ∧ readCol none = [] ∧ storeCol [] = none := by
  intro m hnd
  refine ⟨?_, rfl, rfl⟩
  by_cases hme : m = []
  · subst hme
    rfl
  · unfold storeCol readCol json_loads
    rw [if_neg (fun h => hme (List.isEmpty_iff.mp h))]
    show (json_parse (json_dumps m)).getD [] = m
    rw [json_parse_dumps m hme hnd]
    rfl

/-- C9, witness: the roundtrip theorem applied to a concrete mapping with
one value of each scalar kind. -/
theorem c9_witness :
    readCol (storeCol [("env", JVal.jstr "dev"), ("n", JVal.jint (-3)),
        ("b", JVal.jbool true)]) =
      [("env", JVal.jstr "dev"), ("n", JVal.jint (-3)),
       ("b", JVal.jbool true)] :=
  (c9_column_roundtrip
    [("env", JVal.jstr "dev"), ("n", JVal.jint (-3)), ("b", JVal.jbool true)]
    (by simp [nodupKeys, dictKeys])).1

end FakeAkv
